import Mathlib

/-!
Verification of the relibc `ld_so` dynamic linker (`src/ld_so/linker.rs`)
against its natural-language specification.

The Rust code is shallowly embedded: `usize`/`u64` arithmetic is modelled on
`Nat` with explicit reduction modulo `2 ^ 64` where Rust wraps, `BTreeMap` is
modelled as an association list whose `insert` replaces the value of an
existing key, and external kernel/filesystem primitives (`mmap`, `mprotect`,
`access`, `open`/`read`, IRELATIVE resolver execution) are oracles supplied in
an environment record.  The linker iterates `BTreeMap`s; phase functions here
take the iteration sequence as an explicit list (name-sorted when produced by
the real map).  Side effects observable to the claims (stores performed by the
relocation passes, `mprotect` calls, resolver invocations, segment copies) are
reified as event lists.
-/

namespace LdSo

/-- `PAGE_SIZE` from the source. -/
def PAGE_SIZE : Nat := 4096

/-- ELF program-header type `PT_LOAD`. -/
def PT_LOAD : Nat := 1
/-- ELF program-header type `PT_TLS`. -/
def PT_TLS : Nat := 7

/-- Program-header flag `PF_X`. -/
def PF_X : Nat := 1
/-- Program-header flag `PF_W`. -/
def PF_W : Nat := 2
/-- Program-header flag `PF_R`. -/
def PF_R : Nat := 4

/-- `sys_mman::PROT_READ`. -/
def PROT_READ : Nat := 1
/-- `sys_mman::PROT_WRITE`. -/
def PROT_WRITE : Nat := 2
/-- `sys_mman::PROT_EXEC`. -/
def PROT_EXEC : Nat := 4

/-- `sym::STB_GLOBAL`. -/
def STB_GLOBAL : Nat := 1

/-- x86-64 relocation type numbers (from `goblin::elf::reloc`). -/
def R_X86_64_64 : Nat := 1
def R_X86_64_GLOB_DAT : Nat := 6
def R_X86_64_JUMP_SLOT : Nat := 7
def R_X86_64_RELATIVE : Nat := 8
def R_X86_64_TPOFF64 : Nat := 18
def R_X86_64_IRELATIVE : Nat := 37

/-- Reduction modulo `2 ^ 64`: the value actually held by a `u64` store. -/
def w64 (n : Nat) : Nat := n % 2 ^ 64

/-- 64-bit wrapping subtraction (`usize::wrapping_sub` followed by the
`as u64` cast in the source). -/
def wsub64 (x y : Nat) : Nat := (x + (2 ^ 64 - y % 2 ^ 64)) % 2 ^ 64

/-! ### Association-list model of `BTreeMap`

`BTreeMap::insert` replaces the value of an existing key; `get` finds it.
We model the map observationally: `mapInsert` replaces in place or appends.
-/

/-- `BTreeMap::insert`: replace the binding of `k` if present, else add it. -/
def mapInsert {α : Type} (k : String) (v : α) : List (String × α) → List (String × α)
  | [] => [(k, v)]
  | (k', v') :: rest =>
    if k = k' then (k, v) :: rest else (k', v') :: mapInsert k v rest

/-- `BTreeMap::get`. -/
def mapGet {α : Type} (k : String) : List (String × α) → Option α
  | [] => none
  | (k', v') :: rest => if k = k' then some v' else mapGet k rest

/-! ### ELF data model (the parse view supplied by `goblin`) -/

/-- An ELF program header (the fields the linker reads). -/
structure ProgramHeader where
  p_type : Nat
  p_flags : Nat
  p_offset : Nat
  p_vaddr : Nat
  p_filesz : Nat
  p_memsz : Nat
  p_align : Nat
  deriving DecidableEq, Repr

/-- A dynamic-symbol entry (the fields the linker reads). -/
structure Sym where
  st_bind : Nat
  st_value : Nat
  st_name : Nat
  deriving DecidableEq, Repr

/-- A relocation entry.  `r_addend` is `Option` as in goblin; the value is the
`usize` reinterpretation (`unwrap_or(0) as usize`) of the `i64` addend. -/
structure Reloc where
  r_offset : Nat
  r_addend : Option Nat
  r_sym : Nat
  r_type : Nat
  deriving DecidableEq, Repr

/-- Result of `dynstrtab.get`: `none` when the index is out of the table
(silently skipped in the globals scan), `some (.error ())` for a malformed
entry (propagates a parse failure), `some (.ok s)` for a proper name. -/
abbrev StrtabEntry := Option (Except Unit String)

/-- A loaded object's parse view together with the length of its raw bytes. -/
structure Obj where
  dataLen : Nat
  program_headers : List ProgramHeader
  dynsyms : List Sym
  strtab : Nat → StrtabEntry
  dynrelas : List Reloc
  dynrels : List Reloc
  pltrelocs : List Reloc

/-- Oracles for the kernel and for code execution during `link`:
`alloc name` is the page-aligned base `mmap` returns for an object's mapping,
`mmapOk` whether that `mmap` succeeds, `mprotectOk` whether an `mprotect`
call succeeds, and `resolve addr` the `u64` an IRELATIVE resolver at `addr`
returns when called. -/
structure LinkEnv where
  alloc : String → Nat
  mmapOk : String → Bool
  mprotectOk : Nat → Nat → Nat → Bool
  resolve : Nat → Nat

/-- Errors of the linking pipeline (all are `Error::Malformed` in the source;
the constructors keep the distinct message families apart). -/
inductive LinkErr where
  | strtabBad : LinkErr
  | mapFailed (name : String) : LinkErr
  | copyOob (name : String) : LinkErr
  | tlsOob (name : String) : LinkErr
  | missingSymbol (idx : Nat) : LinkErr
  | missingName (idx : Nat) : LinkErr
  | protectFailed (name : String) : LinkErr
  deriving DecidableEq, Repr

/-! ### Memory layout planning (`link`, bounds computation)

For each program header the source computes
`voff = p_vaddr % PAGE_SIZE`, `vaddr = p_vaddr - voff`,
`vsize = ((p_memsz + voff + PAGE_SIZE - 1) / PAGE_SIZE) * PAGE_SIZE`.
-/

def voffOf (ph : ProgramHeader) : Nat := ph.p_vaddr % PAGE_SIZE

def vaddrOf (ph : ProgramHeader) : Nat := ph.p_vaddr - voffOf ph

def vsizeOf (ph : ProgramHeader) : Nat :=
  ((ph.p_memsz + voffOf ph + PAGE_SIZE - 1) / PAGE_SIZE) * PAGE_SIZE

/-- The header loop of the planning phase: folds the `PT_LOAD` bounds
(`bounds_opt`) and accumulates the `PT_TLS` page-rounded sizes (`tls_size`
contribution) exactly as the source's single loop does. -/
def scanHeadersAux (acc : Option (Nat × Nat)) (tls : Nat) :
    List ProgramHeader → Option (Nat × Nat) × Nat
  | [] => (acc, tls)
  | ph :: rest =>
    if ph.p_type = PT_LOAD then
      let vaddr := vaddrOf ph
      let vsize := vsizeOf ph
      let acc' :=
        match acc with
        | some (lo, hi) =>
          some (if vaddr < lo then vaddr else lo,
                if vaddr + vsize > hi then vaddr + vsize else hi)
        | none => some (vaddr, vaddr + vsize)
      scanHeadersAux acc' tls rest
    else if ph.p_type = PT_TLS then
      scanHeadersAux acc (tls + vsizeOf ph) rest
    else
      scanHeadersAux acc tls rest

/-- `bounds_opt` after the planning loop. -/
def boundsOf (phs : List ProgramHeader) : Option (Nat × Nat) :=
  (scanHeadersAux none 0 phs).1

/-- The sum of page-rounded `PT_TLS` sizes of an object (its contribution to
`tls_size`). -/
def tlsSizeOf : List ProgramHeader → Nat
  | [] => 0
  | ph :: rest => (if ph.p_type = PT_TLS then vsizeOf ph else 0) + tlsSizeOf rest

/-! ### Globals scan (`link`, "Locate all globals") -/

/-- State accumulated by the first loop of `link` ("Load all ELF files into
memory and find all globals"): `tls_primary`, `tls_size`, the per-object
mappings `name -> (base, size)`, and the global symbol table. -/
structure ScanState where
  tls_primary : Nat
  tls_size : Nat
  mmaps : List (String × (Nat × Nat))
  globals : List (String × Nat)
  deriving DecidableEq, Repr

/-- The dynsym loop: for every symbol with `st_bind == STB_GLOBAL` and
`st_value != 0`, resolve its name (a missing string-table entry is silently
skipped, a malformed one propagates an error) and insert
`name -> base + st_value` into the globals map. -/
def scanSyms (obj : Obj) (base : Nat) (globals : List (String × Nat)) :
    List Sym → Except LinkErr (List (String × Nat))
  | [] => .ok globals
  | sym :: rest =>
    if sym.st_bind = STB_GLOBAL ∧ sym.st_value ≠ 0 then
      match obj.strtab sym.st_name with
      | none => scanSyms obj base globals rest
      | some (.error _) => .error .strtabBad
      | some (.ok name) =>
        scanSyms obj base (mapInsert name (base + sym.st_value) globals) rest
    else
      scanSyms obj base globals rest

/-- One iteration of the planning loop: accumulate the TLS sizes, compute the
`PT_LOAD` bounds; an object with no `PT_LOAD` is skipped (`continue`) after
the TLS accumulation; otherwise `mmap` a region of size `bounds.1` (`lo` is
not subtracted), scan its globals, and record the mapping. -/
def scanObject (env : LinkEnv) (primary : String) (st : ScanState)
    (name : String) (obj : Obj) : Except LinkErr ScanState :=
  let (bounds?, tlsSum) := scanHeadersAux none 0 obj.program_headers
  let st1 : ScanState :=
    { st with
      tls_size := st.tls_size + tlsSum
      tls_primary := st.tls_primary + (if name = primary then tlsSum else 0) }
  match bounds? with
  | none => .ok st1
  | some (_, hi) =>
    if env.mmapOk name then
      let base := env.alloc name
      match scanSyms obj base st1.globals obj.dynsyms with
      | .error e => .error e
      | .ok g =>
        .ok { st1 with globals := g, mmaps := mapInsert name (base, hi) st1.mmaps }
    else
      .error (.mapFailed name)

/-- The whole planning/globals loop over the (name-sorted) object sequence. -/
def scanPhase (env : LinkEnv) (primary : String) (st : ScanState) :
    List (String × Obj) → Except LinkErr ScanState
  | [] => .ok st
  | (name, obj) :: rest =>
    match scanObject env primary st name obj with
    | .error e => .error e
    | .ok st' => scanPhase env primary st' rest

/-- The initial scan state (`tls_primary = 0`, `tls_size = 0`, empty maps). -/
def initScan : ScanState := ⟨0, 0, [], []⟩

/-! ### Copy phase (`link`, "Copy data")

The TLS buffer returned by `allocate_tls(tls_size)` is a slice of length
`tls_size`; only its length and the recorded ranges matter to the claims, so
copies are reified as events.  A Rust `usize` subtraction that would underflow
makes the subsequent slice lookup fail (debug build: panic; release build: the
wrapped start is far beyond the buffer, so `get_mut` returns `None` and the
source raises `Malformed`); both are modelled as the `tlsOob` error, guarded
here by the explicit comparison. -/

/-- `valign` of a `PT_TLS` header. -/
def valignOf (ph : ProgramHeader) : Nat :=
  if ph.p_align > 0 then ((ph.p_memsz + (ph.p_align - 1)) / ph.p_align) * ph.p_align
  else ph.p_memsz

/-- State threaded through the copy loop. -/
structure CopyState where
  tls_offset : Nat
  tls_index : Nat
  tls_ranges : List (String × (Nat × Nat × Nat))
  deriving DecidableEq, Repr

/-- A reified copy: a `PT_LOAD` image written at `p_vaddr` in the mapping, or
a `PT_TLS` image written at `start` in the TLS buffer. -/
inductive CopyEv where
  | load (name : String) (dst len : Nat) : CopyEv
  | tls (name : String) (start len : Nat) : CopyEv
  deriving DecidableEq, Repr

/-- The TLS slot the source assigns: `(0, tls.len() - valign)` for the
primary, `(tls_index + 1, tls.len() - (tls_offset + valign))` for a
non-primary object, which also advances `tls_offset` by the page-rounded
`vsize` and `tls_index` by one.  `none` models the underflowing subtraction. -/
def tlsSlot (primary name : String) (tlsLen : Nat) (st : CopyState)
    (valign vsize : Nat) : Option (Nat × Nat × CopyState) :=
  if name = primary then
    if valign ≤ tlsLen then some (0, tlsLen - valign, st) else none
  else
    if st.tls_offset + valign ≤ tlsLen then
      some (st.tls_index + 1, tlsLen - (st.tls_offset + valign),
            { st with tls_offset := st.tls_offset + vsize,
                      tls_index := st.tls_index + 1 })
    else none

/-- The per-header copy loop of one object:
`PT_LOAD` copies `object[file_range]` to `mapping[p_vaddr ..]` (both slice
lookups checked), `PT_TLS` copies it into the TLS slot and records
`(index, range)` in `tls_ranges`. -/
def copyPhs (primary name : String) (dataLen msize tlsLen : Nat)
    (st : CopyState) : List ProgramHeader → Except LinkErr (CopyState × List CopyEv)
  | [] => .ok (st, [])
  | ph :: rest =>
    if ph.p_type = PT_LOAD then
      if ph.p_offset + ph.p_filesz ≤ dataLen then
        if ph.p_vaddr + ph.p_filesz ≤ msize then
          match copyPhs primary name dataLen msize tlsLen st rest with
          | .error e => .error e
          | .ok (st', evs) => .ok (st', .load name ph.p_vaddr ph.p_filesz :: evs)
        else .error (.copyOob name)
      else .error (.copyOob name)
    else if ph.p_type = PT_TLS then
      if ph.p_offset + ph.p_filesz ≤ dataLen then
        match tlsSlot primary name tlsLen st (valignOf ph) (vsizeOf ph) with
        | none => .error (.tlsOob name)
        | some (idx, start, st1) =>
          if start + ph.p_filesz ≤ tlsLen then
            let st2 := { st1 with
              tls_ranges := mapInsert name (idx, start, ph.p_filesz) st1.tls_ranges }
            match copyPhs primary name dataLen msize tlsLen st2 rest with
            | .error e => .error e
            | .ok (st', evs) => .ok (st', .tls name start ph.p_filesz :: evs)
          else .error (.tlsOob name)
      else .error (.copyOob name)
    else
      match copyPhs primary name dataLen msize tlsLen st rest with
      | .error e => .error e
      | .ok (st', evs) => .ok (st', evs)

/-- One iteration of the copy loop: objects without a mapping are skipped. -/
def copyObject (primary : String) (mmaps : List (String × (Nat × Nat)))
    (tlsLen : Nat) (st : CopyState) (name : String) (obj : Obj) :
    Except LinkErr (CopyState × List CopyEv) :=
  match mapGet name mmaps with
  | none => .ok (st, [])
  | some (_, msize) => copyPhs primary name obj.dataLen msize tlsLen st obj.program_headers

/-- The copy loop over all objects. -/
def copyPhaseAux (primary : String) (mmaps : List (String × (Nat × Nat)))
    (tlsLen : Nat) (st : CopyState) :
    List (String × Obj) → Except LinkErr (CopyState × List CopyEv)
  | [] => .ok (st, [])
  | (name, obj) :: rest =>
    match copyObject primary mmaps tlsLen st name obj with
    | .error e => .error e
    | .ok (st1, evs1) =>
      match copyPhaseAux primary mmaps tlsLen st1 rest with
      | .error e => .error e
      | .ok (st2, evs2) => .ok (st2, evs1 ++ evs2)

/-- The copy phase: `tls_offset` starts at `tls_primary`, `tls_index` at 0. -/
def copyPhase (primary : String) (mmaps : List (String × (Nat × Nat)))
    (tlsLen tlsPrimary : Nat) (objs : List (String × Obj)) :
    Except LinkErr (CopyState × List CopyEv) :=
  copyPhaseAux primary mmaps tlsLen ⟨tlsPrimary, 0, []⟩ objs

/-! ### Relocation and protection passes (`link`, "Perform relocations, and
protect pages" / "Perform indirect relocations") -/

/-- Observable actions of the two relocation/protection passes.
`store` is a 64-bit write of the first pass, `protect` an `mprotect` call
(`second = true` for the re-confirmation pass), `irelCall` the invocation of
an IRELATIVE resolver, `irelStore` the write of its returned value. -/
inductive Event where
  | store (name : String) (addr value : Nat) : Event
  | protect (second : Bool) (name : String) (addr size prot : Nat) : Event
  | irelCall (name : String) (resolver : Nat) : Event
  | irelStore (name : String) (addr value : Nat) : Event
  deriving DecidableEq, Repr

/-- The symbol resolution inside the first relocation pass:
`s = 0` when `r_sym == 0`; otherwise the dynsym entry and its name must
resolve (else the pass fails), and an unresolved name silently yields 0. -/
def resolveS (obj : Obj) (globals : List (String × Nat)) (rel : Reloc) :
    Except LinkErr Nat :=
  if rel.r_sym > 0 then
    match obj.dynsyms.get? rel.r_sym with
    | none => .error (.missingSymbol rel.r_sym)
    | some sym =>
      match obj.strtab sym.st_name with
      | none => .error (.missingName sym.st_name)
      | some (.error _) => .error (.missingName sym.st_name)
      | some (.ok name) =>
        match mapGet name globals with
        | some value => .ok value
        | none => .ok 0
  else .ok 0

/-- The store performed by one first-pass relocation entry (`none`: no store —
IRELATIVE is deferred, unknown types are logged and skipped). -/
def relWrite (obj : Obj) (globals : List (String × Nat)) (b t : Nat)
    (rel : Reloc) : Except LinkErr (Option (Nat × Nat)) :=
  let a := rel.r_addend.getD 0
  match resolveS obj globals rel with
  | .error e => .error e
  | .ok s =>
    if rel.r_type = R_X86_64_64 then
      .ok (some (b + rel.r_offset, w64 (s + a)))
    else if rel.r_type = R_X86_64_GLOB_DAT ∨ rel.r_type = R_X86_64_JUMP_SLOT then
      .ok (some (b + rel.r_offset, w64 s))
    else if rel.r_type = R_X86_64_RELATIVE then
      .ok (some (b + rel.r_offset, w64 (b + a)))
    else if rel.r_type = R_X86_64_TPOFF64 then
      .ok (some (b + rel.r_offset, wsub64 (s + a) t))
    else
      .ok none

/-- The first-pass relocation loop of one object, over
`dynrelas ++ dynrels ++ pltrelocs`. -/
def pass1Rels (obj : Obj) (globals : List (String × Nat)) (name : String)
    (b t : Nat) : List Reloc → List Event × Option LinkErr
  | [] => ([], none)
  | rel :: rest =>
    match relWrite obj globals b t rel with
    | .error e => ([], some e)
    | .ok none => pass1Rels obj globals name b t rest
    | .ok (some (addr, v)) =>
      let (evs, e?) := pass1Rels obj globals name b t rest
      (.store name addr v :: evs, e?)

/-- The protection bitmask of a `PT_LOAD` header: `R` grants `READ`; `X`
grants `EXEC` and suppresses `WRITE` even if `W` is requested; `W` grants
`WRITE` only when `X` is absent. -/
def protOf (flags : Nat) : Nat :=
  let prot := 0
  let prot := if flags &&& PF_R = PF_R then prot ||| PROT_READ else prot
  if flags &&& PF_X = PF_X then prot ||| PROT_EXEC
  else if flags &&& PF_W = PF_W then prot ||| PROT_WRITE
  else prot

/-- The protection loop of one object: one `mprotect` call per `PT_LOAD`;
a failing call aborts `link`. -/
def protectObj (env : LinkEnv) (second : Bool) (name : String) (b : Nat) :
    List ProgramHeader → List Event × Option LinkErr
  | [] => ([], none)
  | ph :: rest =>
    if ph.p_type = PT_LOAD then
      let vaddr := vaddrOf ph
      let vsize := vsizeOf ph
      let prot := protOf ph.p_flags
      if env.mprotectOk (b + vaddr) vsize prot then
        let (evs, e?) := protectObj env second name b rest
        (.protect second name (b + vaddr) vsize prot :: evs, e?)
      else
        ([.protect second name (b + vaddr) vsize prot], some (.protectFailed name))
    else protectObj env second name b rest

/-- The TLS offset used by the first pass: the object's recorded
`tls_range.start`, or 0 when it has none. -/
def tlsStartOf (tlsRanges : List (String × (Nat × Nat × Nat))) (name : String) : Nat :=
  match mapGet name tlsRanges with
  | some (_, start, _) => start
  | none => 0

/-- First pass for one mapped object: relocate, then protect its pages. -/
def pass1Obj (env : LinkEnv) (globals : List (String × Nat))
    (tlsRanges : List (String × (Nat × Nat × Nat))) (name : String) (obj : Obj)
    (b : Nat) : List Event × Option LinkErr :=
  let t := tlsStartOf tlsRanges name
  let (revs, e?) :=
    pass1Rels obj globals name b t (obj.dynrelas ++ obj.dynrels ++ obj.pltrelocs)
  match e? with
  | some e => (revs, some e)
  | none =>
    let (pevs, e2) := protectObj env false name b obj.program_headers
    (revs ++ pevs, e2)

/-- The IRELATIVE loop of the second pass: call the resolver at `b + a` and
store its return value at `b + r_offset`. -/
def pass2Rels (env : LinkEnv) (name : String) (b : Nat) : List Reloc → List Event
  | [] => []
  | rel :: rest =>
    if rel.r_type = R_X86_64_IRELATIVE then
      let a := rel.r_addend.getD 0
      Event.irelCall name (b + a) ::
      Event.irelStore name (b + rel.r_offset) (w64 (env.resolve (b + a))) ::
      pass2Rels env name b rest
    else pass2Rels env name b rest

/-- Second pass for one mapped object: IRELATIVE relocations, then the
re-confirmation protection loop. -/
def pass2Obj (env : LinkEnv) (name : String) (obj : Obj) (b : Nat) :
    List Event × Option LinkErr :=
  let evs := pass2Rels env name b (obj.dynrelas ++ obj.dynrels ++ obj.pltrelocs)
  let (pevs, e?) := protectObj env true name b obj.program_headers
  (evs ++ pevs, e?)

/-- Run one pass over the object sequence, skipping unmapped objects and
stopping at the first error. -/
def runPass (f : String → Obj → Nat → List Event × Option LinkErr)
    (mmaps : List (String × (Nat × Nat))) :
    List (String × Obj) → List Event × Option LinkErr
  | [] => ([], none)
  | (name, obj) :: rest =>
    match mapGet name mmaps with
    | none => runPass f mmaps rest
    | some (b, _) =>
      match f name obj b with
      | (evs, some e) => (evs, some e)
      | (evs, none) =>
        let (evs2, e2) := runPass f mmaps rest
        (evs ++ evs2, e2)

/-- The event trace of the two relocation/protection passes of `link`: the
complete first pass (for every object) runs before the second pass starts. -/
def linkTrace (env : LinkEnv) (mmaps : List (String × (Nat × Nat)))
    (globals : List (String × Nat)) (tlsRanges : List (String × (Nat × Nat × Nat)))
    (objs : List (String × Obj)) : List Event × Option LinkErr :=
  match runPass (pass1Obj env globals tlsRanges) mmaps objs with
  | (t1, some e) => (t1, some e)
  | (t1, none) =>
    let (t2, e2) := runPass (pass2Obj env) mmaps objs
    (t1 ++ t2, e2)

/-! ### Object store and dependency resolver (`load`, `load_data`,
`load_library`)

The `Linker` mutates `self.objects` through `&mut self`, so partial updates
survive an error return: the functions here return the (possibly updated)
state together with an optional error.  The filesystem is an oracle; the
mutual recursion of `load_library`/`load`/`load_data` carries no termination
argument in the source (acyclic dependencies are assumed by contract), so the
embedding threads a fuel counter, whose exhaustion is the artificial `noFuel`
outcome. -/

/-- `PATH_SEP` on Linux. -/
def PATH_SEP : Char := ':'

/-- Rust `str::contains(char)` on the character-list view of a string. -/
def containsChar (s : String) (c : Char) : Bool := s.data.any (fun a => a == c)

/-- Rust `str::split(char)` (keeps empty components, yields one empty string
for the empty input), on the character-list view. -/
def splitCharAux (sep : Char) : List Char → List Char → List String
  | [], acc => [String.mk acc.reverse]
  | c :: rest, acc =>
    if c == sep then String.mk acc.reverse :: splitCharAux sep rest []
    else splitCharAux sep rest (c :: acc)

/-- Rust `str::split(char)`. -/
def splitChar (sep : Char) (s : String) : List String := splitCharAux sep s.data []

/-- Failure kinds of object ingestion (all are `Error::Malformed` messages in
the source). -/
inductive LoadErr where
  | invalidPath (p : String) : LoadErr
  | openFailed (p : String) : LoadErr
  | readFailed (p : String) : LoadErr
  | parseFailed : LoadErr
  | notFound (n : String) : LoadErr
  | noFuel : LoadErr
  deriving DecidableEq, Repr

/-- Filesystem and parser oracles for ingestion: `readFile` is
`File::open` + `read_to_end`, `parseLibs` is `Elf::parse` restricted to the
`DT_NEEDED` list, `access` is `unistd::access(_, F_OK) == 0`. -/
structure FsEnv where
  readFile : String → Except LoadErr (List Nat)
  parseLibs : List Nat → Except LoadErr (List String)
  access : String → Bool

/-- The linker state visible to ingestion. -/
structure Linker where
  library_path : String
  objects : List (String × List Nat)
  deriving DecidableEq, Repr

/-- Whether `CString::new` rejects the path (an interior NUL byte). -/
def hasNul (s : String) : Bool := containsChar s (Char.ofNat 0)

/-- The candidate path formed for a search-path component:
`./name` for an empty component, else `part/name`. -/
def mkPath (part name : String) : String :=
  if part = "" then "./" ++ name else part ++ "/" ++ name

mutual

/-- `Linker::load`: check the path, read the file, hand the bytes to
`load_data`. -/
def load (fuel : Nat) (env : FsEnv) (L : Linker) (name path : String) :
    Linker × Option LoadErr :=
  match fuel with
  | 0 => (L, some .noFuel)
  | f + 1 =>
    if hasNul path then (L, some (.invalidPath path))
    else
      match env.readFile path with
      | .error e => (L, some e)
      | .ok data => loadData f env L name data

/-- `Linker::load_data`: parse the dependency list, load each library not in
the store, then insert the bytes under `name`. -/
def loadData (fuel : Nat) (env : FsEnv) (L : Linker) (name : String)
    (data : List Nat) : Linker × Option LoadErr :=
  match fuel with
  | 0 => (L, some .noFuel)
  | f + 1 =>
    match env.parseLibs data with
    | .error e => (L, some e)
    | .ok libs =>
      match loadDeps f env L libs with
      | (L2, some e) => (L2, some e)
      | (L2, none) => ({ L2 with objects := mapInsert name data L2.objects }, none)

/-- The dependency loop of `load_data`: libraries already present are
skipped.  (The fuel is decremented once per list element so that the
recursion is structural; the counter is a model artifact.) -/
def loadDeps (fuel : Nat) (env : FsEnv) (L : Linker) (libs : List String) :
    Linker × Option LoadErr :=
  match libs with
  | [] => (L, none)
  | lib :: rest =>
    if (mapGet lib L.objects).isSome then
      match fuel with
      | 0 => (L, some .noFuel)
      | f + 1 => loadDeps f env L rest
    else
      match fuel with
      | 0 => (L, some .noFuel)
      | f + 1 =>
        match loadLibrary f env L lib with
        | (L2, some e) => (L2, some e)
        | (L2, none) => loadDeps f env L2 rest

/-- `Linker::load_library`: a name containing a path separator is loaded from
its own path; otherwise the search path is walked. -/
def loadLibrary (fuel : Nat) (env : FsEnv) (L : Linker) (name : String) :
    Linker × Option LoadErr :=
  match fuel with
  | 0 => (L, some .noFuel)
  | f + 1 =>
    if containsChar name '/' then load f env L name name
    else searchParts f env L name (splitChar PATH_SEP L.library_path)

/-- The search loop of `load_library`: form each candidate path, test
existence, load from the first hit; fail with `NotFound` when none hits.
(The fuel is decremented once per list element so that the recursion is
structural; the counter is a model artifact.) -/
def searchParts (fuel : Nat) (env : FsEnv) (L : Linker) (name : String)
    (parts : List String) : Linker × Option LoadErr :=
  match parts with
  | [] => (L, some (.notFound name))
  | part :: rest =>
    let path := mkPath part name
    if hasNul path then (L, some (.invalidPath path))
    else if env.access path then
      match fuel with
      | 0 => (L, some .noFuel)
      | f + 1 => load f env L name path
    else
      match fuel with
      | 0 => (L, some .noFuel)
      | f + 1 => searchParts f env L name rest

end

/-! ### Spec-side definitions

The following definitions are transcriptions of the specification's wording
(not of the source); theorems below compare them with the embedded code. -/

/-- The specification's `S` for a relocation entry (§4.7): 0 when
`r_sym == 0`; otherwise the global table's address for the symbol's name, or
0 when the name is not in the global table.  `none` when the symbol or its
name does not resolve (the case the spec's table does not cover). -/
def specSymValue (obj : Obj) (globals : List (String × Nat)) (rel : Reloc) :
    Option Nat :=
  if rel.r_sym = 0 then some 0
  else
    match obj.dynsyms.get? rel.r_sym with
    | none => none
    | some sym =>
      match obj.strtab sym.st_name with
      | some (.ok name) => some ((mapGet name globals).getD 0)
      | _ => none

/-- The specification's first-pass store value table (§4.7), as a 64-bit
quantity: `S + A`, `S`, `B + A`, `(S + A) - T` (wrapping); `none` for types
the table defers or skips. -/
def specStoreValue (rt s a b t : Nat) : Option Nat :=
  if rt = R_X86_64_64 then some (w64 (s + a))
  else if rt = R_X86_64_GLOB_DAT ∨ rt = R_X86_64_JUMP_SLOT then some (w64 s)
  else if rt = R_X86_64_RELATIVE then some (w64 (b + a))
  else if rt = R_X86_64_TPOFF64 then some (wsub64 (s + a) t)
  else none

/-- Events of the first relocation-and-protect pass: stores and first-round
`mprotect` calls. -/
def isPass1Event : Event → Bool
  | .store _ _ _ => true
  | .protect second _ _ _ _ => !second
  | .irelCall _ _ => false
  | .irelStore _ _ _ => false

/-- The name a dynsym entry resolves to, when its string-table entry is
well-formed. -/
def symName (obj : Obj) (sym : Sym) : Option String :=
  match obj.strtab sym.st_name with
  | some (.ok name) => some name
  | _ => none

/-- Whether a dynsym entry contributes the name `nm` to the globals scan
(binding `STB_GLOBAL`, nonzero value, well-formed name equal to `nm`). -/
def symDefines (obj : Obj) (nm : String) (sym : Sym) : Bool :=
  decide (sym.st_bind = STB_GLOBAL) && decide (sym.st_value ≠ 0) &&
    decide (symName obj sym = some nm)

/-- The `st_value` of the last entry of `syms` defining `nm` (the one whose
insertion survives a left-to-right scan with replacing inserts). -/
def objLastOf (obj : Obj) (nm : String) (syms : List Sym) : Option Nat :=
  ((syms.filter (symDefines obj nm)).getLast?).map Sym.st_value

/-- The `st_value` of the last dynsym entry of `obj` defining `nm` (the one
whose insertion survives the object's scan). -/
def objLastDef (obj : Obj) (nm : String) : Option Nat :=
  objLastOf obj nm obj.dynsyms

/-- The address the globals scan leaves for `nm`: the definition from the
object latest in the iteration sequence that is mapped (has a `PT_LOAD`)
and defines `nm`. -/
def lastGlobalDef (env : LinkEnv) (nm : String) : List (String × Obj) → Option Nat
  | [] => none
  | (name, obj) :: rest =>
    match lastGlobalDef env nm rest with
    | some v => some v
    | none =>
      if (boundsOf obj.program_headers).isSome then
        (objLastDef obj nm).map (fun v => env.alloc name + v)
      else none

/-! ### Concrete fixtures used by witnesses and counterexamples -/

/-- An `R|X` `PT_LOAD` header. -/
def phLoadRX : ProgramHeader :=
  { p_type := PT_LOAD, p_flags := PF_R ||| PF_X, p_offset := 0, p_vaddr := 0,
    p_filesz := 16, p_memsz := 16, p_align := PAGE_SIZE }

/-- A test object with one `R|X` load segment and one IRELATIVE relocation. -/
def objIrel : Obj :=
  { dataLen := 8192, program_headers := [phLoadRX], dynsyms := [],
    strtab := fun _ => none,
    dynrelas := [{ r_offset := 64, r_addend := some 8, r_sym := 0,
                   r_type := R_X86_64_IRELATIVE }],
    dynrels := [], pltrelocs := [] }

/-- A link environment whose kernel calls all succeed. -/
def envOk : LinkEnv :=
  { alloc := fun _ => 65536, mmapOk := fun _ => true,
    mprotectOk := fun _ _ _ => true, resolve := fun a => a + 1 }

/-- A one-object mapping table for the fixtures. -/
def mmapsA : List (String × (Nat × Nat)) := [("a", (65536, 4096))]

/-- A small `PT_TLS` header. -/
def phTlsSmall : ProgramHeader :=
  { p_type := PT_TLS, p_flags := PF_R, p_offset := 0, p_vaddr := 0,
    p_filesz := 8, p_memsz := 8, p_align := 8 }

/-- A test object with a `PT_TLS` header but no `PT_LOAD`. -/
def objTlsOnly : Obj :=
  { dataLen := 64, program_headers := [phTlsSmall], dynsyms := [],
    strtab := fun _ => none, dynrelas := [], dynrels := [], pltrelocs := [] }

/-- A test object with one `R_X86_64_64` relocation against the symbol
`foo` (dynsym index 1, string-table index 3). -/
def objRel : Obj :=
  { dataLen := 8192, program_headers := [phLoadRX],
    dynsyms := [{ st_bind := 0, st_value := 0, st_name := 0 },
                { st_bind := STB_GLOBAL, st_value := 4096, st_name := 3 }],
    strtab := fun n => if n = 3 then some (.ok "foo") else none,
    dynrelas := [{ r_offset := 16, r_addend := some 2, r_sym := 1,
                   r_type := R_X86_64_64 }],
    dynrels := [], pltrelocs := [] }

/-- A one-symbol global table for the fixtures. -/
def globalsFoo : List (String × Nat) := [("foo", 70000)]

/-- An empty linker with an empty search path (one empty component). -/
def linker0 : Linker := { library_path := "", objects := [] }

/-- A filesystem in which only `./liba.so` exists and parses with no
dependencies. -/
def fsA : FsEnv :=
  { readFile := fun p => if p = "./liba.so" then .ok [1, 2] else .error (.openFailed p)
    parseLibs := fun _ => .ok []
    access := fun p => p == "./liba.so" }

/-- A filesystem in which every path passes the existence test but opening
always fails. -/
def fsB : FsEnv :=
  { readFile := fun p => .error (.openFailed p)
    parseLibs := fun _ => .ok []
    access := fun _ => true }

/-- A link environment giving object `a` base 65536 and every other object
base 131072. -/
def envC1 : LinkEnv :=
  { alloc := fun n => if n = "a" then 65536 else 131072
    mmapOk := fun _ => true, mprotectOk := fun _ _ _ => true
    resolve := fun a => a }

/-- An object exporting the GLOBAL symbol `foo` with `st_value = 256`. -/
def objGlobA : Obj :=
  { dataLen := 8192, program_headers := [phLoadRX],
    dynsyms := [{ st_bind := 0, st_value := 0, st_name := 0 },
                { st_bind := STB_GLOBAL, st_value := 256, st_name := 1 }],
    strtab := fun n => if n = 1 then some (.ok "foo") else none,
    dynrelas := [], dynrels := [], pltrelocs := [] }

/-- An object exporting the GLOBAL symbol `foo` with `st_value = 512`. -/
def objGlobB : Obj :=
  { dataLen := 8192, program_headers := [phLoadRX],
    dynsyms := [{ st_bind := 0, st_value := 0, st_name := 0 },
                { st_bind := STB_GLOBAL, st_value := 512, st_name := 1 }],
    strtab := fun n => if n = 1 then some (.ok "foo") else none,
    dynrelas := [], dynrels := [], pltrelocs := [] }

/-- Two colliding objects in name-sorted iteration order; `a` is the
primary. -/
def objsC1 : List (String × Obj) := [("a", objGlobA), ("b", objGlobB)]

/-- Every key of `m` is still bound in `m'`. -/
def keysMono {α : Type} (m m' : List (String × α)) : Prop :=
  ∀ k, (mapGet k m).isSome = true → (mapGet k m').isSome = true

/-- The invariant maintained by the copy loop over the TLS state:
`tls_offset` never falls below `tls_primary`, and every recorded non-primary
slot ends at or below `tlsLen - tlsPrimary`. -/
def TlsInv (primary : String) (tlsLen tlsPrimary : Nat) (cst : CopyState) : Prop :=
  tlsPrimary ≤ cst.tls_offset ∧
  ∀ nm idx s l, nm ≠ primary → mapGet nm cst.tls_ranges = some (idx, s, l) →
    s + l ≤ tlsLen - tlsPrimary

/-- A `PT_TLS` header whose `valign` (8192) exceeds its page-rounded `vsize`
(4096): `p_memsz = 1`, `p_align = 8192`. -/
def phTlsBigAlign : ProgramHeader :=
  { p_type := PT_TLS, p_flags := PF_R, p_offset := 0, p_vaddr := 0,
    p_filesz := 1, p_memsz := 1, p_align := 8192 }

/-- A page-sized, page-aligned `PT_TLS` header. -/
def phTlsPage : ProgramHeader :=
  { p_type := PT_TLS, p_flags := PF_R, p_offset := 0, p_vaddr := 0,
    p_filesz := 4096, p_memsz := 4096, p_align := 4096 }

/-- A primary object whose TLS alignment exceeds the page size. -/
def objTlsA : Obj :=
  { dataLen := 8192, program_headers := [phLoadRX, phTlsBigAlign], dynsyms := [],
    strtab := fun _ => none, dynrelas := [], dynrels := [], pltrelocs := [] }

/-- A non-primary object with one page of TLS. -/
def objTlsB : Obj :=
  { dataLen := 8192, program_headers := [phLoadRX, phTlsPage], dynsyms := [],
    strtab := fun _ => none, dynrelas := [], dynrels := [], pltrelocs := [] }

/-- The two TLS objects in iteration order; `a` is the primary. -/
def objsT : List (String × Obj) := [("a", objTlsA), ("b", objTlsB)]

/-- The mapping table the planning phase produces for two objects `a`, `b`. -/
def mmapsAB : List (String × (Nat × Nat)) :=
  [("a", (65536, 4096)), ("b", (131072, 4096))]

/-! ### Shape of the events produced by each pass -/

theorem mapGet_mapInsert_self {α : Type} (k : String) (v : α) (m : List (String × α)) :
    mapGet k (mapInsert k v m) = some v := by
  induction m with
  | nil => simp [mapInsert, mapGet]
  | cons hd tl ih =>
    obtain ⟨k', v'⟩ := hd
    by_cases h : k = k' <;> simp [mapInsert, mapGet, h, ih]

theorem mapGet_mapInsert_ne {α : Type} {k k' : String} (h : k' ≠ k) (v : α)
    (m : List (String × α)) : mapGet k' (mapInsert k v m) = mapGet k' m := by
  induction m with
  | nil => simp [mapInsert, mapGet, h]
  | cons hd tl ih =>
    obtain ⟨k'', v''⟩ := hd
    by_cases h1 : k = k''
    · subst h1
      simp [mapInsert, mapGet, h]
    · by_cases h2 : k' = k'' <;> simp [mapInsert, mapGet, h1, h2, ih]

theorem mapInsert_get_eq {α : Type} {k : String} {v : α} {m : List (String × α)}
    (h : mapGet k m = some v) : mapInsert k v m = m := by
  induction m with
  | nil => simp [mapGet] at h
  | cons hd tl ih =>
    obtain ⟨k', v'⟩ := hd
    by_cases hk : k = k'
    · subst hk
      simp [mapGet] at h
      simp [mapInsert, h]
    · simp [mapGet, hk] at h
      simp [mapInsert, hk, ih h]

theorem mem_protectObj {env : LinkEnv} {second : Bool} {name : String} {b : Nat}
    {phs : List ProgramHeader} {ev : Event}
    (h : ev ∈ (protectObj env second name b phs).1) :
    ∃ flags a s, ev = .protect second name a s (protOf flags) := by
  induction phs with
  | nil => simp [protectObj] at h
  | cons ph rest ih =>
    rcases hrec : protectObj env second name b rest with ⟨evs, e?⟩
    by_cases hty : ph.p_type = PT_LOAD
    · by_cases hmp : env.mprotectOk (b + vaddrOf ph) (vsizeOf ph) (protOf ph.p_flags)
      · simp only [protectObj, hty, if_true, hmp, hrec] at h
        rcases List.mem_cons.mp h with h | h
        · exact ⟨ph.p_flags, b + vaddrOf ph, vsizeOf ph, h⟩
        · exact ih (by rw [hrec]; exact h)
      · simp only [protectObj, hty, if_true, hmp] at h
        simp at h
        exact ⟨ph.p_flags, b + vaddrOf ph, vsizeOf ph, h⟩
    · simp only [protectObj, hty, if_false] at h
      exact ih h

theorem mem_pass1Rels {obj : Obj} {globals : List (String × Nat)} {name : String}
    {b t : Nat} {rels : List Reloc} {ev : Event}
    (h : ev ∈ (pass1Rels obj globals name b t rels).1) :
    ∃ addr v, ev = .store name addr v := by
  induction rels with
  | nil => simp [pass1Rels] at h
  | cons rel rest ih =>
    simp only [pass1Rels] at h
    rcases hw : relWrite obj globals b t rel with e | w
    · simp [hw] at h
    · rcases w with _ | ⟨addr, v⟩
      · simp only [hw] at h
        exact ih h
      · simp only [hw] at h
        rcases List.mem_cons.mp h with h | h
        · exact ⟨addr, v, h⟩
        · exact ih h

theorem mem_pass1Obj {env : LinkEnv} {globals : List (String × Nat)}
    {tlsRanges : List (String × (Nat × Nat × Nat))} {name : String} {obj : Obj}
    {b : Nat} {ev : Event} (h : ev ∈ (pass1Obj env globals tlsRanges name obj b).1) :
    (∃ addr v, ev = .store name addr v) ∨
    (∃ flags a s, ev = .protect false name a s (protOf flags)) := by
  unfold pass1Obj at h
  rcases hr : pass1Rels obj globals name b (tlsStartOf tlsRanges name)
      (obj.dynrelas ++ obj.dynrels ++ obj.pltrelocs) with ⟨revs, e?⟩
  rcases e? with _ | e
  · rcases hp : protectObj env false name b obj.program_headers with ⟨pevs, e2⟩
    simp only [hr, hp] at h
    rcases List.mem_append.mp h with h | h
    · exact .inl (mem_pass1Rels (by rw [hr]; exact h))
    · exact .inr (mem_protectObj (by rw [hp]; exact h))
  · simp only [hr] at h
    exact .inl (mem_pass1Rels (by rw [hr]; exact h))

theorem mem_pass2Rels {env : LinkEnv} {name : String} {b : Nat} {rels : List Reloc}
    {ev : Event} (h : ev ∈ pass2Rels env name b rels) :
    (∃ r, ev = .irelCall name r) ∨ (∃ addr v, ev = .irelStore name addr v) := by
  induction rels with
  | nil => simp [pass2Rels] at h
  | cons rel rest ih =>
    by_cases hty : rel.r_type = R_X86_64_IRELATIVE
    · simp only [pass2Rels, hty, if_true] at h
      rcases List.mem_cons.mp h with h | h
      · exact .inl ⟨_, h⟩
      · rcases List.mem_cons.mp h with h | h
        · exact .inr ⟨_, _, h⟩
        · exact ih h
    · simp only [pass2Rels, hty, if_false] at h
      exact ih h

theorem mem_pass2Obj {env : LinkEnv} {name : String} {obj : Obj} {b : Nat}
    {ev : Event} (h : ev ∈ (pass2Obj env name obj b).1) :
    (∃ r, ev = .irelCall name r) ∨ (∃ addr v, ev = .irelStore name addr v) ∨
    (∃ flags a s, ev = .protect true name a s (protOf flags)) := by
  unfold pass2Obj at h
  rcases hp : protectObj env true name b obj.program_headers with ⟨pevs, e2⟩
  simp only [hp] at h
  rcases List.mem_append.mp h with h | h
  · rcases mem_pass2Rels h with h | h
    · exact .inl h
    · exact .inr (.inl h)
  · exact .inr (.inr (mem_protectObj (by rw [hp]; exact h)))

theorem mem_runPass {f : String → Obj → Nat → List Event × Option LinkErr}
    {mmaps : List (String × (Nat × Nat))} {objs : List (String × Obj)} {ev : Event}
    (h : ev ∈ (runPass f mmaps objs).1) :
    ∃ name obj b, ev ∈ (f name obj b).1 := by
  induction objs with
  | nil => simp [runPass] at h
  | cons hd rest ih =>
    obtain ⟨name, obj⟩ := hd
    rcases hm : mapGet name mmaps with _ | ⟨b, sz⟩
    · simp only [runPass, hm] at h
      exact ih h
    · simp only [runPass, hm] at h
      rcases hf : f name obj b with ⟨evs, e?⟩
      rcases e? with _ | e
      · simp only [hf] at h
        rcases List.mem_append.mp h with h | h
        · exact ⟨name, obj, b, by rw [hf]; exact h⟩
        · exact ih h
      · simp only [hf] at h
        exact ⟨name, obj, b, by rw [hf]; exact h⟩

/-- The protection bitmask as an explicit case split. -/
theorem protOf_eq (flags : Nat) :
    protOf flags =
      if flags &&& PF_X = PF_X then
        (if flags &&& PF_R = PF_R then PROT_READ ||| PROT_EXEC else PROT_EXEC)
      else if flags &&& PF_W = PF_W then
        (if flags &&& PF_R = PF_R then PROT_READ ||| PROT_WRITE else PROT_WRITE)
      else (if flags &&& PF_R = PF_R then PROT_READ else 0) := by
  simp only [protOf]
  split_ifs <;> decide

/-- Case analysis on the protection bitmask. -/
theorem protOf_spec (flags : Nat) :
    ((flags &&& PF_X = PF_X) →
      (protOf flags &&& PROT_EXEC = PROT_EXEC ∧
       ¬ protOf flags &&& PROT_WRITE = PROT_WRITE)) ∧
    ((protOf flags &&& PROT_WRITE = PROT_WRITE) ↔
      (¬ flags &&& PF_X = PF_X ∧ flags &&& PF_W = PF_W)) := by
  constructor
  · intro hx
    rw [protOf_eq, if_pos hx]
    by_cases hr : flags &&& PF_R = PF_R
    · rw [if_pos hr]; decide
    · rw [if_neg hr]; decide
  · by_cases hx : flags &&& PF_X = PF_X
    · rw [protOf_eq, if_pos hx]
      by_cases hr : flags &&& PF_R = PF_R
      · rw [if_pos hr]; simp [hx]; decide
      · rw [if_neg hr]; simp [hx]; decide
    · rw [protOf_eq, if_neg hx]
      by_cases hw : flags &&& PF_W = PF_W
      · rw [if_pos hw]
        by_cases hr : flags &&& PF_R = PF_R
        · rw [if_pos hr]; simp [hx, hw]; decide
        · rw [if_neg hr]; simp [hx, hw]
      · rw [if_neg hw]
        by_cases hr : flags &&& PF_R = PF_R
        · rw [if_pos hr]; simp [hx, hw]; decide
        · rw [if_neg hr]; simp [hx, hw]; decide

theorem protOf_no_wx (flags : Nat) :
    ¬ (protOf flags &&& PROT_WRITE = PROT_WRITE ∧
       protOf flags &&& PROT_EXEC = PROT_EXEC) := by
  rw [protOf_eq]
  split_ifs <;> decide

theorem pass1_events {env : LinkEnv} {globals : List (String × Nat)}
    {tlsRanges : List (String × (Nat × Nat × Nat))}
    {mmaps : List (String × (Nat × Nat))} {objs : List (String × Obj)} {ev : Event}
    (h : ev ∈ (runPass (pass1Obj env globals tlsRanges) mmaps objs).1) :
    isPass1Event ev = true := by
  obtain ⟨name, obj, b, hm⟩ := mem_runPass h
  rcases mem_pass1Obj hm with ⟨a, v, rfl⟩ | ⟨f, a, s, rfl⟩ <;> simp [isPass1Event]

theorem pass2_events {env : LinkEnv} {mmaps : List (String × (Nat × Nat))}
    {objs : List (String × Obj)} {ev : Event}
    (h : ev ∈ (runPass (pass2Obj env) mmaps objs).1) :
    isPass1Event ev = false := by
  obtain ⟨name, obj, b, hm⟩ := mem_runPass h
  rcases mem_pass2Obj hm with ⟨r, rfl⟩ | ⟨a, v, rfl⟩ | ⟨f, a, s, rfl⟩ <;>
    simp [isPass1Event]

theorem linkTrace_eq (env : LinkEnv) (mmaps : List (String × (Nat × Nat)))
    (globals : List (String × Nat)) (tlsRanges : List (String × (Nat × Nat × Nat)))
    (objs : List (String × Obj)) :
    (linkTrace env mmaps globals tlsRanges objs).1 =
      (runPass (pass1Obj env globals tlsRanges) mmaps objs).1 ∨
    (linkTrace env mmaps globals tlsRanges objs).1 =
      (runPass (pass1Obj env globals tlsRanges) mmaps objs).1 ++
      (runPass (pass2Obj env) mmaps objs).1 := by
  unfold linkTrace
  rcases h1 : runPass (pass1Obj env globals tlsRanges) mmaps objs with ⟨t1, e1⟩
  rcases e1 with _ | e
  · rcases h2 : runPass (pass2Obj env) mmaps objs with ⟨t2, e2⟩
    right
    simp [h2]
  · left
    simp

theorem linkTrace_protect_protOf {env : LinkEnv} {mmaps : List (String × (Nat × Nat))}
    {globals : List (String × Nat)} {tlsRanges : List (String × (Nat × Nat × Nat))}
    {objs : List (String × Obj)} {sec : Bool} {nm : String} {a s p : Nat}
    (h : Event.protect sec nm a s p ∈ (linkTrace env mmaps globals tlsRanges objs).1) :
    ∃ flags, p = protOf flags := by
  have hsplit :
      Event.protect sec nm a s p ∈
        (runPass (pass1Obj env globals tlsRanges) mmaps objs).1 ∨
      Event.protect sec nm a s p ∈ (runPass (pass2Obj env) mmaps objs).1 := by
    rcases linkTrace_eq env mmaps globals tlsRanges objs with heq | heq
    · rw [heq] at h
      exact .inl h
    · rw [heq] at h
      exact List.mem_append.mp h
  rcases hsplit with h | h
  · obtain ⟨name, obj, b, hm⟩ := mem_runPass h
    rcases mem_pass1Obj hm with ⟨a', v', hev⟩ | ⟨f, a', s', hev⟩
    · simp at hev
    · simp only [Event.protect.injEq] at hev
      exact ⟨f, hev.2.2.2.2⟩
  · obtain ⟨name, obj, b, hm⟩ := mem_runPass h
    rcases mem_pass2Obj hm with ⟨r, hev⟩ | ⟨a', v', hev⟩ | ⟨f, a', s', hev⟩
    · simp at hev
    · simp at hev
    · simp only [Event.protect.injEq] at hev
      exact ⟨f, hev.2.2.2.2⟩

/-- C3: for every `PT_LOAD`, the protection bitmask never contains both
WRITE and EXEC: when `PF_X` is set, EXEC is granted and WRITE withheld even
if `PF_W` is also set, and WRITE is granted only when `PF_X` is absent and
`PF_W` present; consequently no `mprotect` call of either protection pass
of `link` requests WRITE together with EXEC. -/
theorem C3_wx_never_write_and_exec :
    (∀ flags : Nat,
      ((flags &&& PF_X = PF_X) →
        (protOf flags &&& PROT_EXEC = PROT_EXEC ∧
         ¬ protOf flags &&& PROT_WRITE = PROT_WRITE)) ∧
      ((protOf flags &&& PROT_WRITE = PROT_WRITE) ↔
        (¬ flags &&& PF_X = PF_X ∧ flags &&& PF_W = PF_W))) ∧
    (∀ (env : LinkEnv) (mmaps : List (String × (Nat × Nat)))
       (globals : List (String × Nat))
       (tlsRanges : List (String × (Nat × Nat × Nat)))
       (objs : List (String × Obj)) (sec : Bool) (nm : String) (a s p : Nat),
      Event.protect sec nm a s p ∈ (linkTrace env mmaps globals tlsRanges objs).1 →
      ¬ (p &&& PROT_WRITE = PROT_WRITE ∧ p &&& PROT_EXEC = PROT_EXEC)) := by
  refine ⟨protOf_spec, ?_⟩
  intro env mmaps globals tlsRanges objs sec nm a s p h
  obtain ⟨flags, rfl⟩ := linkTrace_protect_protOf h
  exact protOf_no_wx flags

/-- C7: in `link`, no IRELATIVE resolver is invoked before the first
relocation-and-protect pass has completed for every object: every first-pass
store and first-round `mprotect` call occurs strictly before every resolver
invocation in the event trace. -/
theorem C7_irelative_after_first_pass (env : LinkEnv)
    (mmaps : List (String × (Nat × Nat))) (globals : List (String × Nat))
    (tlsRanges : List (String × (Nat × Nat × Nat))) (objs : List (String × Obj))
    (i j : Nat) (nm : String) (r : Nat) (ev : Event)
    (hi : (linkTrace env mmaps globals tlsRanges objs).1.get? i =
      some (.irelCall nm r))
    (hj : (linkTrace env mmaps globals tlsRanges objs).1.get? j = some ev)
    (hev : isPass1Event ev = true) : j < i := by
  rcases linkTrace_eq env mmaps globals tlsRanges objs with heq | heq
  · rw [heq] at hi
    have h1 := pass1_events (List.get?_mem hi)
    simp [isPass1Event] at h1
  · rw [heq] at hi hj
    rcases Nat.lt_or_ge i (runPass (pass1Obj env globals tlsRanges) mmaps objs).1.length
      with hlt | hge
    · rw [List.get?_append hlt] at hi
      have h1 := pass1_events (List.get?_mem hi)
      simp [isPass1Event] at h1
    · rcases Nat.lt_or_ge j (runPass (pass1Obj env globals tlsRanges) mmaps objs).1.length
        with hlt2 | hge2
      · exact lt_of_lt_of_le hlt2 hge
      · rw [List.get?_append_right hge2] at hj
        have h2 := pass2_events (List.get?_mem hj)
        rw [hev] at h2
        cases h2

/-- Witness for C3: the hypotheses hold at `flags = R|W|X` and at a concrete
protection event of a concrete link trace. -/
theorem C3_wx_never_write_and_exec_witness :
    ((7 : Nat) &&& PF_X = PF_X ∧
     (protOf 7 &&& PROT_EXEC = PROT_EXEC ∧
      ¬ protOf 7 &&& PROT_WRITE = PROT_WRITE)) ∧
    (Event.protect false "a" 65536 4096 5 ∈
       (linkTrace envOk mmapsA [] [] [("a", objIrel)]).1 ∧
     ¬ ((5 : Nat) &&& PROT_WRITE = PROT_WRITE ∧
        (5 : Nat) &&& PROT_EXEC = PROT_EXEC)) :=
  ⟨⟨by decide, (C3_wx_never_write_and_exec.1 7).1 (by decide)⟩,
   ⟨by decide,
    C3_wx_never_write_and_exec.2 envOk mmapsA [] [] [("a", objIrel)]
      false "a" 65536 4096 5 (by decide)⟩⟩

/-- Witness for C7: on a concrete object with an IRELATIVE relocation, the
resolver invocation (index 1) comes after the first protection call
(index 0). -/
theorem C7_irelative_after_first_pass_witness :
    ((linkTrace envOk mmapsA [] [] [("a", objIrel)]).1.get? 1 =
       some (.irelCall "a" 65544) ∧
     (linkTrace envOk mmapsA [] [] [("a", objIrel)]).1.get? 0 =
       some (.protect false "a" 65536 4096 5) ∧
     isPass1Event (.protect false "a" 65536 4096 5) = true) ∧ 0 < 1 :=
  ⟨⟨by decide, by decide, by decide⟩,
   C7_irelative_after_first_pass envOk mmapsA [] [] [("a", objIrel)] 1 0 "a" 65544
     (.protect false "a" 65536 4096 5) (by decide) (by decide) (by decide)⟩

/-! ### Bounds of the planning fold (claims C6, C9) -/

theorem scanHeadersAux_bounds :
    ∀ (phs : List ProgramHeader) (acc : Option (Nat × Nat)) (tls lo hi : Nat),
    (scanHeadersAux acc tls phs).1 = some (lo, hi) →
    (∀ l0 h0, acc = some (l0, h0) → h0 ≤ hi) ∧
    (∀ ph ∈ phs, ph.p_type = PT_LOAD → vaddrOf ph + vsizeOf ph ≤ hi) ∧
    ((∃ l0, acc = some (l0, hi)) ∨
     (∃ ph ∈ phs, ph.p_type = PT_LOAD ∧ vaddrOf ph + vsizeOf ph = hi)) := by
  intro phs
  induction phs with
  | nil =>
    intro acc tls lo hi h
    simp only [scanHeadersAux] at h
    refine ⟨?_, by simp, .inl ⟨lo, h⟩⟩
    intro l0 h0 hacc
    rw [h] at hacc
    cases hacc
    exact le_refl hi
  | cons ph rest ih =>
    intro acc tls lo hi h
    by_cases hty : ph.p_type = PT_LOAD
    · cases acc with
      | none =>
        have h' : (scanHeadersAux (some (vaddrOf ph, vaddrOf ph + vsizeOf ph))
            tls rest).1 = some (lo, hi) := by
          simpa [scanHeadersAux, hty] using h
        obtain ⟨c1, c2, c3⟩ := ih _ tls lo hi h'
        refine ⟨by simp, ?_, ?_⟩
        · intro ph' hmem hty'
          rcases List.mem_cons.mp hmem with rfl | hmem
          · exact c1 _ _ rfl
          · exact c2 ph' hmem hty'
        · rcases c3 with ⟨l0, hacc⟩ | ⟨ph', hmem, hty', heq⟩
          · cases hacc
            exact .inr ⟨ph, List.mem_cons_self ph rest, hty, rfl⟩
          · exact .inr ⟨ph', List.mem_cons_of_mem ph hmem, hty', heq⟩
      | some b =>
        obtain ⟨l0, h0⟩ := b
        have h' : (scanHeadersAux
            (some (if vaddrOf ph < l0 then vaddrOf ph else l0,
                   if vaddrOf ph + vsizeOf ph > h0 then vaddrOf ph + vsizeOf ph
                   else h0)) tls rest).1 = some (lo, hi) := by
          simpa [scanHeadersAux, hty] using h
        obtain ⟨c1, c2, c3⟩ := ih _ tls lo hi h'
        have hnew := c1 _ _ rfl
        have hh0 : h0 ≤ hi := by
          refine le_trans ?_ hnew
          split <;> omega
        have hspan : vaddrOf ph + vsizeOf ph ≤ hi := by
          refine le_trans ?_ hnew
          split <;> omega
        refine ⟨?_, ?_, ?_⟩
        · intro l1 h1 hacc
          cases hacc
          exact hh0
        · intro ph' hmem hty'
          rcases List.mem_cons.mp hmem with rfl | hmem
          · exact hspan
          · exact c2 ph' hmem hty'
        · rcases c3 with ⟨l1, hacc⟩ | ⟨ph', hmem, hty', heq⟩
          · by_cases hgt : vaddrOf ph + vsizeOf ph > h0
            · rw [if_pos hgt] at hacc
              cases hacc
              exact .inr ⟨ph, List.mem_cons_self ph rest, hty, rfl⟩
            · rw [if_neg hgt] at hacc
              cases hacc
              exact .inl ⟨l0, rfl⟩
          · exact .inr ⟨ph', List.mem_cons_of_mem ph hmem, hty', heq⟩
    · by_cases hty2 : ph.p_type = PT_TLS
      · have h' : (scanHeadersAux acc (tls + vsizeOf ph) rest).1 = some (lo, hi) := by
          simpa [scanHeadersAux, hty, hty2] using h
        obtain ⟨c1, c2, c3⟩ := ih _ _ lo hi h'
        refine ⟨c1, ?_, ?_⟩
        · intro ph' hmem hty'
          rcases List.mem_cons.mp hmem with rfl | hmem
          · exact absurd hty' hty
          · exact c2 ph' hmem hty'
        · rcases c3 with hl | ⟨ph', hmem, hty', heq⟩
          · exact .inl hl
          · exact .inr ⟨ph', List.mem_cons_of_mem ph hmem, hty', heq⟩
      · have h' : (scanHeadersAux acc tls rest).1 = some (lo, hi) := by
          simpa [scanHeadersAux, hty, hty2] using h
        obtain ⟨c1, c2, c3⟩ := ih _ _ lo hi h'
        refine ⟨c1, ?_, ?_⟩
        · intro ph' hmem hty'
          rcases List.mem_cons.mp hmem with rfl | hmem
          · exact absurd hty' hty
          · exact c2 ph' hmem hty'
        · rcases c3 with hl | ⟨ph', hmem, hty', heq⟩
          · exact .inl hl
          · exact .inr ⟨ph', List.mem_cons_of_mem ph hmem, hty', heq⟩

/-- C6: for an object with at least one `PT_LOAD`, the mapping recorded by the
planning loop has size `hi` (`lo` is not subtracted), where `hi` is the
maximum — attained — of `vaddr + vsize` over its `PT_LOAD` headers; hence
every `PT_LOAD`'s page-rounded span `[vaddr, vaddr + vsize)` lies inside
`[0, hi)`. -/
theorem C6_mapping_covers_loads (env : LinkEnv) (primary : String)
    (st : ScanState) (name : String) (obj : Obj) (st' : ScanState) (lo hi : Nat)
    (hscan : scanObject env primary st name obj = .ok st')
    (hb : boundsOf obj.program_headers = some (lo, hi)) :
    mapGet name st'.mmaps = some (env.alloc name, hi) ∧
    (∀ ph ∈ obj.program_headers, ph.p_type = PT_LOAD →
      vaddrOf ph + vsizeOf ph ≤ hi) ∧
    (∃ ph ∈ obj.program_headers, ph.p_type = PT_LOAD ∧
      vaddrOf ph + vsizeOf ph = hi) := by
  obtain ⟨c1, c2, c3⟩ := scanHeadersAux_bounds obj.program_headers none 0 lo hi hb
  refine ⟨?_, c2, ?_⟩
  · unfold scanObject at hscan
    rcases hsh : scanHeadersAux none 0 obj.program_headers with ⟨b?, tlsSum⟩
    have hb' : b? = some (lo, hi) := by
      have := congrArg Prod.fst hsh
      rw [boundsOf] at hb
      simp at this
      rw [this] at hb
      exact hb
    rw [hsh, hb'] at hscan
    dsimp only at hscan
    by_cases hmm : env.mmapOk name
    · rw [if_pos hmm] at hscan
      rcases hsy : scanSyms obj (env.alloc name)
          (st.globals) obj.dynsyms with e | g
      · rw [hsy] at hscan
        cases hscan
      · rw [hsy] at hscan
        injection hscan with hst
        rw [← hst]
        exact mapGet_mapInsert_self name _ _
    · rw [if_neg hmm] at hscan
      cases hscan
  · rcases c3 with ⟨l0, hacc⟩ | h3
    · cases hacc
    · exact h3

/-- Witness for C6 at a concrete object with one `PT_LOAD`. -/
theorem C6_mapping_covers_loads_witness :
    (scanObject envOk "a" initScan "a" objIrel =
       .ok { tls_primary := 0, tls_size := 0,
             mmaps := [("a", (65536, 4096))], globals := [] } ∧
     boundsOf objIrel.program_headers = some (0, 4096)) ∧
    mapGet "a" [("a", (65536, 4096))] = some (envOk.alloc "a", 4096) :=
  ⟨⟨by rfl, by decide⟩,
   (C6_mapping_covers_loads envOk "a" initScan "a" objIrel
      { tls_primary := 0, tls_size := 0,
        mmaps := [("a", (65536, 4096))], globals := [] } 0 4096
      (by rfl) (by decide)).1⟩

/-! ### The first relocation pass implements the specification's store table
(claim C2) -/

theorem specSymValue_resolveS {obj : Obj} {globals : List (String × Nat)}
    {rel : Reloc} {s : Nat} (h : specSymValue obj globals rel = some s) :
    resolveS obj globals rel = .ok s := by
  unfold specSymValue at h
  unfold resolveS
  by_cases h0 : rel.r_sym = 0
  · rw [if_pos h0] at h
    injection h with h
    have hng : ¬ rel.r_sym > 0 := by omega
    rw [if_neg hng, h]
  · rw [if_neg h0] at h
    have hpos : rel.r_sym > 0 := Nat.pos_of_ne_zero h0
    rw [if_pos hpos]
    rcases hsym : obj.dynsyms.get? rel.r_sym with _ | sym
    · rw [hsym] at h
      simp at h
    · simp only [hsym] at h ⊢
      rcases hst : obj.strtab sym.st_name with _ | res
      · simp [hst] at h
      · rcases res with e | nm
        · simp [hst] at h
        · simp only [hst] at h ⊢
          injection h with h
          rcases hg : mapGet nm globals with _ | v
          · simp only [hg, Option.getD] at h ⊢
            rw [← h]
          · simp only [hg, Option.getD] at h ⊢
            rw [← h]

theorem relWrite_spec {obj : Obj} {globals : List (String × Nat)} {b t : Nat}
    {rel : Reloc} {s v : Nat} (hs : specSymValue obj globals rel = some s)
    (hv : specStoreValue rel.r_type s (rel.r_addend.getD 0) b t = some v) :
    relWrite obj globals b t rel = .ok (some (b + rel.r_offset, v)) := by
  unfold relWrite
  rw [specSymValue_resolveS hs]
  dsimp only
  unfold specStoreValue at hv
  by_cases h1 : rel.r_type = R_X86_64_64
  · rw [if_pos h1] at hv ⊢
    injection hv with hv
    rw [hv]
  · rw [if_neg h1] at hv ⊢
    by_cases h2 : rel.r_type = R_X86_64_GLOB_DAT ∨ rel.r_type = R_X86_64_JUMP_SLOT
    · rw [if_pos h2] at hv ⊢
      injection hv with hv
      rw [hv]
    · rw [if_neg h2] at hv ⊢
      by_cases h3 : rel.r_type = R_X86_64_RELATIVE
      · rw [if_pos h3] at hv ⊢
        injection hv with hv
        rw [hv]
      · rw [if_neg h3] at hv ⊢
        by_cases h4 : rel.r_type = R_X86_64_TPOFF64
        · rw [if_pos h4] at hv ⊢
          injection hv with hv
          rw [hv]
        · rw [if_neg h4] at hv
          cases hv

theorem pass1Rels_mem {obj : Obj} {globals : List (String × Nat)} {name : String}
    {b t : Nat} : ∀ {rels : List Reloc} {evs : List Event} {rel : Reloc}
    {addr v : Nat},
    pass1Rels obj globals name b t rels = (evs, none) → rel ∈ rels →
    relWrite obj globals b t rel = .ok (some (addr, v)) →
    Event.store name addr v ∈ evs := by
  intro rels
  induction rels with
  | nil =>
    intro evs rel addr v _ hmem
    cases hmem
  | cons hd rest ih =>
    intro evs rel addr v hrun hmem hw
    rcases hrec : pass1Rels obj globals name b t rest with ⟨evs', e?⟩
    rcases hw0 : relWrite obj globals b t hd with e | w
    · simp only [pass1Rels, hw0, Prod.mk.injEq] at hrun
      exact Option.noConfusion hrun.2
    · rcases w with _ | ⟨a0, v0⟩
      · simp only [pass1Rels, hw0] at hrun
        rcases List.mem_cons.mp hmem with rfl | hmem
        · rw [hw0] at hw
          injection hw with hw
          cases hw
        · exact ih hrun hmem hw
      · simp only [pass1Rels, hw0, hrec, Prod.mk.injEq] at hrun
        rcases List.mem_cons.mp hmem with rfl | hmem
        · rw [hw0] at hw
          injection hw with hw
          injection hw with hw
          cases hw
          rw [← hrun.1]
          exact List.mem_cons_self _ _
        · rw [← hrun.1]
          refine List.mem_cons_of_mem _ (ih ?_ hmem hw)
          rw [hrec, hrun.2]

theorem pass1Obj_parts {env : LinkEnv} {globals : List (String × Nat)}
    {tlsRanges : List (String × (Nat × Nat × Nat))} {name : String} {obj : Obj}
    {b : Nat} {evs : List Event}
    (h : pass1Obj env globals tlsRanges name obj b = (evs, none)) :
    ∃ revs pevs,
      pass1Rels obj globals name b (tlsStartOf tlsRanges name)
        (obj.dynrelas ++ obj.dynrels ++ obj.pltrelocs) = (revs, none) ∧
      evs = revs ++ pevs := by
  unfold pass1Obj at h
  rcases hr : pass1Rels obj globals name b (tlsStartOf tlsRanges name)
      (obj.dynrelas ++ obj.dynrels ++ obj.pltrelocs) with ⟨revs, e?⟩
  rcases e? with _ | e
  · rcases hp : protectObj env false name b obj.program_headers with ⟨pevs, e2⟩
    simp only [hr, hp, Prod.mk.injEq] at h
    exact ⟨revs, pevs, rfl, h.1.symm⟩
  · simp only [hr, Prod.mk.injEq] at h
    exact Option.noConfusion h.2

theorem runPass_mem {f : String → Obj → Nat → List Event × Option LinkErr}
    {mmaps : List (String × (Nat × Nat))} :
    ∀ {objs : List (String × Obj)} {evs : List Event} {name : String} {obj : Obj}
    {b sz : Nat},
    runPass f mmaps objs = (evs, none) → (name, obj) ∈ objs →
    mapGet name mmaps = some (b, sz) →
    ∃ evs0, f name obj b = (evs0, none) ∧ ∀ ev ∈ evs0, ev ∈ evs := by
  intro objs
  induction objs with
  | nil =>
    intro evs name obj b sz _ hmem
    cases hmem
  | cons hd rest ih =>
    intro evs name obj b sz hrun hmem hmap
    obtain ⟨name', obj'⟩ := hd
    rcases List.mem_cons.mp hmem with heq | hmem
    · injection heq with h1 h2
      subst h1
      subst h2
      simp only [runPass, hmap] at hrun
      rcases hf : f name obj b with ⟨evs0, e?⟩
      rcases e? with _ | e
      · rcases hrest : runPass f mmaps rest with ⟨evs2, e2⟩
        simp only [hf, hrest, Prod.mk.injEq] at hrun
        refine ⟨evs0, rfl, fun ev hev => ?_⟩
        rw [← hrun.1]
        exact List.mem_append_left _ hev
      · simp only [hf, Prod.mk.injEq] at hrun
        exact Option.noConfusion hrun.2
    · rcases hm0 : mapGet name' mmaps with _ | b0
      · simp only [runPass, hm0] at hrun
        exact ih hrun hmem hmap
      · obtain ⟨b0, sz0⟩ := b0
        simp only [runPass, hm0] at hrun
        rcases hf : f name' obj' b0 with ⟨evs0, e?⟩
        rcases e? with _ | e
        · rcases hrest : runPass f mmaps rest with ⟨evs2, e2⟩
          simp only [hf, hrest, Prod.mk.injEq] at hrun
          obtain ⟨evs1, hf1, hsub⟩ := ih (by rw [hrest, hrun.2]) hmem hmap
          refine ⟨evs1, hf1, fun ev hev => ?_⟩
          rw [← hrun.1]
          exact List.mem_append_right _ (hsub ev hev)
        · simp only [hf, Prod.mk.injEq] at hrun
          exact Option.noConfusion hrun.2

/-- C2: for every relocation entry of an object in
`dynrelas ++ dynrels ++ pltrelocs` whose type the first pass stores, the pass
performs a 64-bit store at `B + r_offset` whose value is the specification's
table entry — `S + A`, `S`, `B + A`, or `(S + A) - T` wrapping modulo
`2 ^ 64` — where `S` is the global table's entry for the symbol's name (0
when `r_sym = 0` or the name is absent) and `T` the object's recorded
`tls_range.start` (0 when absent). -/
theorem C2_first_pass_store_table (env : LinkEnv)
    (mmaps : List (String × (Nat × Nat))) (globals : List (String × Nat))
    (tlsRanges : List (String × (Nat × Nat × Nat))) (objs : List (String × Obj))
    (name : String) (obj : Obj) (b sz : Nat) (rel : Reloc) (s v : Nat)
    (evs : List Event)
    (hrun : runPass (pass1Obj env globals tlsRanges) mmaps objs = (evs, none))
    (hobj : (name, obj) ∈ objs)
    (hmap : mapGet name mmaps = some (b, sz))
    (hrel : rel ∈ obj.dynrelas ++ obj.dynrels ++ obj.pltrelocs)
    (hs : specSymValue obj globals rel = some s)
    (hv : specStoreValue rel.r_type s (rel.r_addend.getD 0) b
      (tlsStartOf tlsRanges name) = some v) :
    Event.store name (b + rel.r_offset) v ∈ evs := by
  obtain ⟨evs0, hf, hsub⟩ := runPass_mem hrun hobj hmap
  obtain ⟨revs, pevs, hrels, heq⟩ := pass1Obj_parts hf
  refine hsub _ ?_
  rw [heq]
  exact List.mem_append_left _ (pass1Rels_mem hrels hrel (relWrite_spec hs hv))

/-- Witness for C2: a concrete `R_X86_64_64` relocation against `foo`
produces the store of `S + A` at `B + r_offset`. -/
theorem C2_first_pass_store_table_witness :
    (runPass (pass1Obj envOk globalsFoo []) mmapsA [("a", objRel)] =
       ([.store "a" 65552 70002, .protect false "a" 65536 4096 5], none) ∧
     mapGet "a" mmapsA = some (65536, 4096) ∧
     specSymValue objRel globalsFoo
       { r_offset := 16, r_addend := some 2, r_sym := 1, r_type := R_X86_64_64 } =
       some 70000 ∧
     specStoreValue R_X86_64_64 70000 2 65536 (tlsStartOf [] "a") = some 70002) ∧
    Event.store "a" (65536 + 16) 70002 ∈
      [Event.store "a" 65552 70002, Event.protect false "a" 65536 4096 5] :=
  ⟨⟨by decide, by decide, by decide, by decide⟩,
   C2_first_pass_store_table envOk mmapsA globalsFoo [] [("a", objRel)]
     "a" objRel 65536 4096
     { r_offset := 16, r_addend := some 2, r_sym := 1, r_type := R_X86_64_64 }
     70000 70002 [.store "a" 65552 70002, .protect false "a" 65536 4096 5]
     (by decide) (List.mem_cons_self _ _) (by decide) (by decide) (by decide)
     (by decide)⟩

theorem scanHeadersAux_no_load :
    ∀ (phs : List ProgramHeader), (∀ ph ∈ phs, ph.p_type ≠ PT_LOAD) →
    ∀ (acc : Option (Nat × Nat)) (tls : Nat),
    scanHeadersAux acc tls phs = (acc, tls + tlsSizeOf phs) := by
  intro phs
  induction phs with
  | nil =>
    intro _ acc tls
    simp [scanHeadersAux, tlsSizeOf]
  | cons ph rest ih =>
    intro hno acc tls
    have hty : ph.p_type ≠ PT_LOAD := hno ph (List.mem_cons_self ph rest)
    have hrest : ∀ ph' ∈ rest, ph'.p_type ≠ PT_LOAD :=
      fun ph' hmem => hno ph' (List.mem_cons_of_mem ph hmem)
    by_cases hty2 : ph.p_type = PT_TLS
    · simp only [scanHeadersAux, hty, if_false, hty2, if_true,
        ih hrest, tlsSizeOf]
      rw [if_neg (by decide : ¬ (PT_TLS = PT_LOAD)), Nat.add_assoc]
    · simp only [scanHeadersAux, hty, if_false, hty2,
        ih hrest, tlsSizeOf]
      simp

/-- C9: for an object with a `PT_TLS` header but no `PT_LOAD`, the planning
loop still adds the page-rounded TLS size to `tls_size` (and to `tls_primary`
when it is the primary), yet records no mapping and no globals, and the copy
phase skips it entirely: no copy event is emitted, no `(tls_index, tls_range)`
is recorded, and its state is unchanged. -/
theorem C9_tls_without_load (env : LinkEnv) (primary : String) (st : ScanState)
    (name : String) (obj : Obj) (mmaps : List (String × (Nat × Nat)))
    (tlsLen : Nat) (cst : CopyState)
    (hTLS : ∃ ph ∈ obj.program_headers, ph.p_type = PT_TLS)
    (hNoLoad : ∀ ph ∈ obj.program_headers, ph.p_type ≠ PT_LOAD)
    (hUnmapped : mapGet name mmaps = none) :
    scanObject env primary st name obj =
      .ok { st with
            tls_size := st.tls_size + tlsSizeOf obj.program_headers
            tls_primary := st.tls_primary +
              (if name = primary then tlsSizeOf obj.program_headers else 0) } ∧
    copyObject primary mmaps tlsLen cst name obj = .ok (cst, []) := by
  constructor
  · unfold scanObject
    rw [scanHeadersAux_no_load obj.program_headers hNoLoad none 0]
    dsimp only
    simp only [Nat.zero_add]
  · unfold copyObject
    rw [hUnmapped]

/-! ### The dependency search loop (claims C8, C10) -/

theorem searchParts_hit {env : FsEnv} {L : Linker} {name : String} :
    ∀ (parts : List String) (k : Nat) (part : String) (g : Nat),
    (∀ p ∈ parts, hasNul (mkPath p name) = false) →
    parts.get? k = some part →
    (∀ i, i < k → ∀ q, parts.get? i = some q →
      env.access (mkPath q name) = false) →
    env.access (mkPath part name) = true →
    searchParts (k + (g + 1)) env L name parts =
      load g env L name (mkPath part name) := by
  intro parts
  induction parts with
  | nil =>
    intro k part g _ hget _ _
    simp [List.get?] at hget
  | cons p rest ih =>
    intro k part g hnul hget hmiss hacc
    have hnp : hasNul (mkPath p name) = false :=
      hnul p (List.mem_cons_self p rest)
    cases k with
    | zero =>
      simp only [List.get?] at hget
      injection hget with hget
      subst hget
      simp only [Nat.zero_add, searchParts, hnp, Bool.false_eq_true, if_false,
        hacc, if_true]
      simp
    | succ j =>
      have hph : env.access (mkPath p name) = false :=
        hmiss 0 (Nat.succ_pos j) p rfl
      simp only [List.get?] at hget
      have hrec := ih j part g (fun q hq => hnul q (List.mem_cons_of_mem p hq))
        hget (fun i hi q hq => hmiss (i + 1) (Nat.succ_lt_succ hi) q hq) hacc
      have hstep : j + 1 + (g + 1) = (j + (g + 1)) + 1 := by omega
      rw [hstep]
      simp only [searchParts, hnp, Bool.false_eq_true, if_false, hph, hrec]

theorem searchParts_miss {env : FsEnv} {L : Linker} {name : String} :
    ∀ (parts : List String) (g : Nat),
    (∀ p ∈ parts, hasNul (mkPath p name) = false) →
    (∀ p ∈ parts, env.access (mkPath p name) = false) →
    searchParts (parts.length + g) env L name parts =
      (L, some (.notFound name)) := by
  intro parts
  induction parts with
  | nil =>
    intro g _ _
    simp [searchParts]
  | cons p rest ih =>
    intro g hnul hmiss
    have hnp : hasNul (mkPath p name) = false :=
      hnul p (List.mem_cons_self p rest)
    have hph : env.access (mkPath p name) = false :=
      hmiss p (List.mem_cons_self p rest)
    have hrec := ih g (fun q hq => hnul q (List.mem_cons_of_mem p hq))
      (fun q hq => hmiss q (List.mem_cons_of_mem p hq))
    have hstep : (p :: rest).length + g = (rest.length + g) + 1 := by
      simp [List.length_cons]
      omega
    rw [hstep]
    simp only [searchParts, hnp, Bool.false_eq_true, if_false, hph, hrec]

/-- C8: `load_library` loads `name` from its own path when it contains a path
separator; otherwise it walks the search-path components in order, forming
`p/name` (`./name` for an empty component), loads from the first component
passing the existence test, and when none passes it fails with
`NotFound(name)` leaving the object store unchanged. -/
theorem C8_load_library_search (env : FsEnv) (L : Linker) (name : String)
    (hnul : ∀ part ∈ splitChar PATH_SEP L.library_path,
      hasNul (mkPath part name) = false) :
    (containsChar name '/' = true → ∀ g,
      loadLibrary (g + 1) env L name = load g env L name name) ∧
    (containsChar name '/' = false →
      ∀ k part g, (splitChar PATH_SEP L.library_path).get? k = some part →
        (∀ i, i < k → ∀ q, (splitChar PATH_SEP L.library_path).get? i = some q →
          env.access (mkPath q name) = false) →
        env.access (mkPath part name) = true →
        loadLibrary (k + g + 2) env L name =
          load g env L name (mkPath part name)) ∧
    (containsChar name '/' = false →
      (∀ part ∈ splitChar PATH_SEP L.library_path,
        env.access (mkPath part name) = false) →
      ∀ g, loadLibrary ((splitChar PATH_SEP L.library_path).length + g + 1)
          env L name = (L, some (.notFound name))) := by
  refine ⟨?_, ?_, ?_⟩
  · intro hsep g
    simp only [loadLibrary, hsep, if_true]
  · intro hsep k part g hget hmiss hacc
    have hstep : k + g + 2 = (k + (g + 1)) + 1 := by omega
    rw [hstep]
    simp only [loadLibrary, hsep, Bool.false_eq_true, if_false]
    exact searchParts_hit _ k part g hnul hget hmiss hacc
  · intro hsep hmiss g
    simp only [loadLibrary, hsep, Bool.false_eq_true, if_false]
    exact searchParts_miss _ g hnul hmiss

/-- Witness for C8: with search path `""` (one empty component) and a
filesystem in which `./liba.so` exists, `load_library "liba.so"` loads from
`./liba.so` (the first — and only — component). -/
theorem C8_load_library_search_witness :
    ((∀ part ∈ splitChar PATH_SEP linker0.library_path,
        hasNul (mkPath part "liba.so") = false) ∧
     containsChar "liba.so" '/' = false ∧
     (splitChar PATH_SEP linker0.library_path).get? 0 = some "" ∧
     fsA.access (mkPath "" "liba.so") = true) ∧
    loadLibrary 2 fsA linker0 "liba.so" =
      load 0 fsA linker0 "liba.so" (mkPath "" "liba.so") :=
  ⟨⟨by decide, by decide, by decide, by decide⟩,
   (C8_load_library_search fsA linker0 "liba.so" (by decide)).2.1
     (by decide) 0 "" 0 (by decide) (fun i hi q _ => absurd hi (by omega))
     (by decide)⟩

/-- C10: once the existence test passes for a component, the result of
loading that single path is returned immediately — a load failure propagates
and the remaining components are never tried, whatever they contain. -/
theorem C10_first_hit_result_is_final (env : FsEnv) (L : Linker) (name : String)
    (part : String) (rest : List String) (fuel : Nat) (L2 : Linker) (e : LoadErr)
    (hnul : hasNul (mkPath part name) = false)
    (hacc : env.access (mkPath part name) = true)
    (hload : load fuel env L name (mkPath part name) = (L2, some e)) :
    searchParts (fuel + 1) env L name (part :: rest) = (L2, some e) := by
  simp only [searchParts, hnul, Bool.false_eq_true, if_false, hacc, if_true, hload]

/-- Witness for C10: the first component passes the existence test, its open
fails, and the error is returned without trying the later component. -/
theorem C10_first_hit_result_is_final_witness :
    (hasNul (mkPath "" "x") = false ∧ fsB.access (mkPath "" "x") = true ∧
     load 1 fsB linker0 "x" (mkPath "" "x") =
       (linker0, some (.openFailed "./x"))) ∧
    searchParts 2 fsB linker0 "x" ["", "lib"] =
      (linker0, some (.openFailed "./x")) :=
  ⟨⟨by decide, by decide, by decide⟩,
   C10_first_hit_result_is_final fsB linker0 "x" "" ["lib"] 1 linker0
     (.openFailed "./x") (by decide) (by decide) (by decide)⟩

/-- Witness for C9 at a concrete object with one `PT_TLS` and no `PT_LOAD`. -/
theorem C9_tls_without_load_witness :
    ((∃ ph ∈ objTlsOnly.program_headers, ph.p_type = PT_TLS) ∧
     (∀ ph ∈ objTlsOnly.program_headers, ph.p_type ≠ PT_LOAD) ∧
     mapGet "t" ([] : List (String × (Nat × Nat))) = none) ∧
    (scanObject envOk "p" initScan "t" objTlsOnly =
       .ok { tls_primary := 0, tls_size := 4096, mmaps := [], globals := [] } ∧
     copyObject "p" [] 0 ⟨0, 0, []⟩ "t" objTlsOnly = .ok (⟨0, 0, []⟩, [])) := by
  refine ⟨⟨⟨phTlsSmall, by decide, by decide⟩, by decide, by decide⟩, ?_⟩
  have h := C9_tls_without_load envOk "p" initScan "t" objTlsOnly [] 0 ⟨0, 0, []⟩
    ⟨phTlsSmall, by decide, by decide⟩ (by decide) (by decide)
  simpa using h

/-! ### The object store across ingestion (claim C5) -/

theorem keysMono_refl {α : Type} (m : List (String × α)) : keysMono m m :=
  fun _ h => h

theorem keysMono_trans {α : Type} {m1 m2 m3 : List (String × α)}
    (h1 : keysMono m1 m2) (h2 : keysMono m2 m3) : keysMono m1 m3 :=
  fun k h => h2 k (h1 k h)

theorem keysMono_insert {α : Type} (k : String) (v : α) (m : List (String × α)) :
    keysMono m (mapInsert k v m) := by
  intro k' h
  by_cases hk : k' = k
  · subst hk
    rw [mapGet_mapInsert_self]
    rfl
  · rw [mapGet_mapInsert_ne hk]
    exact h

/-- Ingestion only ever adds bindings to the object store, whatever the
outcome. -/
theorem loadFns_mono : ∀ fuel : Nat,
    (∀ (env : FsEnv) (L : Linker) (name path : String),
      keysMono L.objects (load fuel env L name path).1.objects) ∧
    (∀ (env : FsEnv) (L : Linker) (name : String) (data : List Nat),
      keysMono L.objects (loadData fuel env L name data).1.objects) ∧
    (∀ (env : FsEnv) (L : Linker) (libs : List String),
      keysMono L.objects (loadDeps fuel env L libs).1.objects) ∧
    (∀ (env : FsEnv) (L : Linker) (name : String),
      keysMono L.objects (loadLibrary fuel env L name).1.objects) ∧
    (∀ (env : FsEnv) (L : Linker) (name : String) (parts : List String),
      keysMono L.objects (searchParts fuel env L name parts).1.objects) := by
  intro fuel
  induction fuel with
  | zero =>
    refine ⟨fun env L name path => keysMono_refl _,
            fun env L name data => keysMono_refl _,
            fun env L libs => ?_,
            fun env L name => keysMono_refl _,
            fun env L name parts => ?_⟩
    · cases libs with
      | nil => exact keysMono_refl _
      | cons lib rest =>
        by_cases hp : (mapGet lib L.objects).isSome = true <;>
          simp [loadDeps, hp, keysMono_refl]
    · cases parts with
      | nil => exact keysMono_refl _
      | cons p rest =>
        by_cases hn : hasNul (mkPath p name) = true
        · simp [searchParts, hn, keysMono_refl]
        · by_cases ha : env.access (mkPath p name) = true <;>
            simp [searchParts, hn, ha, keysMono_refl]
  | succ f ih =>
    obtain ⟨ihLoad, ihData, ihDeps, ihLib, ihSearch⟩ := ih
    refine ⟨?_, ?_, ?_, ?_, ?_⟩
    · intro env L name path
      by_cases hn : hasNul path = true
      · simp [load, hn, keysMono_refl]
      · rcases hr : env.readFile path with e | data
        · simp [load, hn, hr, keysMono_refl]
        · simp only [load, hn, Bool.false_eq_true, if_false, hr]
          exact ihData env L name data
    · intro env L name data
      rcases hp : env.parseLibs data with e | libs
      · simp [loadData, hp, keysMono_refl]
      · rcases hd : loadDeps f env L libs with ⟨L2, e?⟩
        have hmono : keysMono L.objects L2.objects := by
          have := ihDeps env L libs
          rw [hd] at this
          exact this
        rcases e? with _ | e
        · simp only [loadData, hp, hd]
          exact keysMono_trans hmono (keysMono_insert name data L2.objects)
        · simp only [loadData, hp, hd]
          exact hmono
    · intro env L libs
      cases libs with
      | nil => exact keysMono_refl _
      | cons lib rest =>
        by_cases hp : (mapGet lib L.objects).isSome = true
        · simp only [loadDeps, hp, if_true]
          exact ihDeps env L rest
        · simp only [loadDeps, hp, Bool.false_eq_true, if_false]
          rcases hl : loadLibrary f env L lib with ⟨L2, e?⟩
          have hmono : keysMono L.objects L2.objects := by
            have := ihLib env L lib
            rw [hl] at this
            exact this
          rcases e? with _ | e
          · exact keysMono_trans hmono (ihDeps env L2 rest)
          · exact hmono
    · intro env L name
      by_cases hc : containsChar name '/' = true
      · simp only [loadLibrary, hc, if_true]
        exact ihLoad env L name name
      · simp only [loadLibrary, hc, Bool.false_eq_true, if_false]
        exact ihSearch env L name (splitChar PATH_SEP L.library_path)
    · intro env L name parts
      cases parts with
      | nil => exact keysMono_refl _
      | cons p rest =>
        by_cases hn : hasNul (mkPath p name) = true
        · simp [searchParts, hn, keysMono_refl]
        · by_cases ha : env.access (mkPath p name) = true
          · simp only [searchParts, hn, Bool.false_eq_true, if_false, ha, if_true]
            exact ihLoad env L name (mkPath p name)
          · simp only [searchParts, hn, Bool.false_eq_true, if_false, ha]
            exact ihSearch env L name rest

/-- A successful ingestion leaves the ingested name (and every dependency)
bound in the store. -/
theorem loadFns_present : ∀ fuel : Nat,
    (∀ (env : FsEnv) (L : Linker) (name path : String) (L' : Linker),
      load fuel env L name path = (L', none) →
      (mapGet name L'.objects).isSome = true) ∧
    (∀ (env : FsEnv) (L : Linker) (name : String) (data : List Nat) (L' : Linker),
      loadData fuel env L name data = (L', none) →
      (mapGet name L'.objects).isSome = true) ∧
    (∀ (env : FsEnv) (L : Linker) (libs : List String) (L' : Linker),
      loadDeps fuel env L libs = (L', none) →
      ∀ lib ∈ libs, (mapGet lib L'.objects).isSome = true) ∧
    (∀ (env : FsEnv) (L : Linker) (name : String) (L' : Linker),
      loadLibrary fuel env L name = (L', none) →
      (mapGet name L'.objects).isSome = true) ∧
    (∀ (env : FsEnv) (L : Linker) (name : String) (parts : List String)
      (L' : Linker),
      searchParts fuel env L name parts = (L', none) →
      (mapGet name L'.objects).isSome = true) := by
  intro fuel
  induction fuel with
  | zero =>
    refine ⟨?_, ?_, ?_, ?_, ?_⟩
    · intro env L name path L' h
      simp [load, Prod.mk.injEq] at h
    · intro env L name data L' h
      simp [loadData, Prod.mk.injEq] at h
    · intro env L libs L' h
      cases libs with
      | nil => intro lib hlib; cases hlib
      | cons lib rest =>
        by_cases hp : (mapGet lib L.objects).isSome = true <;>
          simp [loadDeps, hp, Prod.mk.injEq] at h
    · intro env L name L' h
      simp [loadLibrary, Prod.mk.injEq] at h
    · intro env L name parts L' h
      cases parts with
      | nil => simp [searchParts, Prod.mk.injEq] at h
      | cons p rest =>
        by_cases hn : hasNul (mkPath p name) = true
        · simp [searchParts, hn, Prod.mk.injEq] at h
        · by_cases ha : env.access (mkPath p name) = true <;>
            simp [searchParts, hn, ha, Prod.mk.injEq] at h
  | succ f ih =>
    obtain ⟨ihLoad, ihData, ihDeps, ihLib, ihSearch⟩ := ih
    refine ⟨?_, ?_, ?_, ?_, ?_⟩
    · intro env L name path L' h
      by_cases hn : hasNul path = true
      · simp [load, hn, Prod.mk.injEq] at h
      · rcases hr : env.readFile path with e | data
        · simp [load, hn, hr, Prod.mk.injEq] at h
        · simp only [load, hn, Bool.false_eq_true, if_false, hr] at h
          exact ihData env L name data L' h
    · intro env L name data L' h
      rcases hp : env.parseLibs data with e | libs
      · simp [loadData, hp, Prod.mk.injEq] at h
      · rcases hd : loadDeps f env L libs with ⟨L2, e?⟩
        rcases e? with _ | e
        · simp only [loadData, hp, hd, Prod.mk.injEq] at h
          rw [← h.1]
          rw [mapGet_mapInsert_self]
          rfl
        · simp only [loadData, hp, hd, Prod.mk.injEq] at h
          exact Option.noConfusion h.2
    · intro env L libs L' h
      cases libs with
      | nil => intro lib hlib; cases hlib
      | cons lib rest =>
        intro lib' hlib'
        by_cases hp : (mapGet lib L.objects).isSome = true
        · simp only [loadDeps, hp, if_true] at h
          rcases List.mem_cons.mp hlib' with rfl | hmem
          · have hmono := (loadFns_mono f).2.2.1 env L rest
            rw [h] at hmono
            exact hmono lib' hp
          · exact ihDeps env L rest L' h lib' hmem
        · simp only [loadDeps, hp, Bool.false_eq_true, if_false] at h
          rcases hl : loadLibrary f env L lib with ⟨L2, e?⟩
          rcases e? with _ | e
          · rw [hl] at h
            dsimp only at h
            rcases List.mem_cons.mp hlib' with rfl | hmem
            · have hpres := ihLib env L lib' L2 hl
              have hmono := (loadFns_mono f).2.2.1 env L2 rest
              rw [h] at hmono
              exact hmono lib' hpres
            · exact ihDeps env L2 rest L' h lib' hmem
          · rw [hl] at h
            dsimp only at h
            simp only [Prod.mk.injEq] at h
            exact Option.noConfusion h.2
    · intro env L name L' h
      by_cases hc : containsChar name '/' = true
      · simp only [loadLibrary, hc, if_true] at h
        exact ihLoad env L name name L' h
      · simp only [loadLibrary, hc, Bool.false_eq_true, if_false] at h
        exact ihSearch env L name (splitChar PATH_SEP L.library_path) L' h
    · intro env L name parts L' h
      cases parts with
      | nil => simp [searchParts, Prod.mk.injEq] at h
      | cons p rest =>
        by_cases hn : hasNul (mkPath p name) = true
        · simp [searchParts, hn, Prod.mk.injEq] at h
        · by_cases ha : env.access (mkPath p name) = true
          · simp only [searchParts, hn, Bool.false_eq_true, if_false, ha,
              if_true] at h
            exact ihLoad env L name (mkPath p name) L' h
          · simp only [searchParts, hn, Bool.false_eq_true, if_false, ha] at h
            exact ihSearch env L name rest L' h

/-- A successful dependency loop took at least one fuel step per library. -/
theorem loadDeps_fuel_lb :
    ∀ (libs : List String) (fuel : Nat) (env : FsEnv) (L L' : Linker),
    loadDeps fuel env L libs = (L', none) → libs.length ≤ fuel := by
  intro libs
  induction libs with
  | nil =>
    intro fuel env L L' _
    simp
  | cons lib rest ih =>
    intro fuel env L L' h
    by_cases hp : (mapGet lib L.objects).isSome = true
    · cases fuel with
      | zero => simp [loadDeps, hp, Prod.mk.injEq] at h
      | succ f =>
        simp only [loadDeps, hp, if_true] at h
        have := ih f env L L' h
        simp [List.length_cons]
        omega
    · cases fuel with
      | zero => simp [loadDeps, hp, Prod.mk.injEq] at h
      | succ f =>
        simp only [loadDeps, hp, Bool.false_eq_true, if_false] at h
        rcases hl : loadLibrary f env L lib with ⟨L2, e?⟩
        rcases e? with _ | e
        · rw [hl] at h
          have := ih f env L2 L' h
          simp [List.length_cons]
          omega
        · rw [hl] at h
          simp only [Prod.mk.injEq] at h
          exact Option.noConfusion h.2

/-- The dependency loop is the identity when every library is already
present and the fuel suffices. -/
theorem loadDeps_all_present :
    ∀ (libs : List String) (fuel : Nat) (env : FsEnv) (L : Linker),
    (∀ lib ∈ libs, (mapGet lib L.objects).isSome = true) →
    libs.length ≤ fuel →
    loadDeps fuel env L libs = (L, none) := by
  intro libs
  induction libs with
  | nil =>
    intro fuel env L _ _
    cases fuel <;> rfl
  | cons lib rest ih =>
    intro fuel env L hpres hlen
    have hp : (mapGet lib L.objects).isSome = true :=
      hpres lib (List.mem_cons_self lib rest)
    cases fuel with
    | zero => simp [List.length_cons] at hlen
    | succ f =>
      simp only [loadDeps, hp, if_true]
      refine ih f env L (fun q hq => hpres q (List.mem_cons_of_mem lib hq)) ?_
      simp [List.length_cons] at hlen
      omega

/-- Counterexample to C5 as stated: the store's `insert` replaces — a second
insertion under a present name with different bytes changes the stored
bytes (`load_data` overwrites the binding of `"a"`). -/
theorem C5_insert_not_if_absent_counterexample :
    mapGet "a" (loadData 1 fsB { library_path := "", objects := [("a", [1])] }
      "a" [2]).1.objects = some [2] ∧
    some ([2] : List Nat) ≠ some [1] :=
  ⟨by decide, by decide⟩

/-- C5 (amended): insertion stores the bytes unconditionally, replacing any
previous binding; re-inserting identical bytes leaves the store unchanged,
and `load(name, path)` followed by `load(name, path)` leaves the object
store unchanged after the second call. -/
theorem C5_insert_replace_roundtrip :
    (∀ (k : String) (v : List Nat) (m : List (String × List Nat)),
      mapInsert k v (mapInsert k v m) = mapInsert k v m) ∧
    (∀ (fuel : Nat) (env : FsEnv) (L : Linker) (name path : String)
      (L1 : Linker),
      load fuel env L name path = (L1, none) →
      load fuel env L1 name path = (L1, none)) := by
  constructor
  · intro k v m
    exact mapInsert_get_eq (mapGet_mapInsert_self k v m)
  · intro fuel env L name path L1 h
    cases fuel with
    | zero => simp [load, Prod.mk.injEq] at h
    | succ f =>
      by_cases hn : hasNul path = true
      · simp [load, hn, Prod.mk.injEq] at h
      · rcases hr : env.readFile path with e | data
        · simp [load, hn, hr, Prod.mk.injEq] at h
        · simp only [load, hn, Bool.false_eq_true, if_false, hr] at h ⊢
          cases f with
          | zero => simp [loadData, Prod.mk.injEq] at h
          | succ f2 =>
            rcases hp : env.parseLibs data with e | libs
            · simp [loadData, hp, Prod.mk.injEq] at h
            · simp only [loadData, hp] at h ⊢
              rcases hd : loadDeps f2 env L libs with ⟨L2, e?⟩
              rcases e? with _ | e
              · rw [hd] at h
                simp only [Prod.mk.injEq] at h
                have hL1 : L1 =
                    { L2 with objects := mapInsert name data L2.objects } :=
                  h.1.symm
                have hlen : libs.length ≤ f2 := loadDeps_fuel_lb libs f2 env L L2 hd
                have hpres : ∀ lib ∈ libs,
                    (mapGet lib L1.objects).isSome = true := by
                  intro lib hlib
                  have h2 := (loadFns_present f2).2.2.1 env L libs L2 hd lib hlib
                  rw [hL1]
                  exact keysMono_insert name data L2.objects lib h2
                rw [loadDeps_all_present libs f2 env L1 hpres hlen]
                dsimp only
                have hget : mapGet name L1.objects = some data := by
                  rw [hL1]
                  exact mapGet_mapInsert_self name data L2.objects
                have hins : mapInsert name data L1.objects = L1.objects :=
                  mapInsert_get_eq hget
                rw [hins]
              · rw [hd] at h
                simp only [Prod.mk.injEq] at h
                exact Option.noConfusion h.2

/-- Witness for C5 (amended): a concrete successful `load` repeated with the
same fuel returns the same store. -/
theorem C5_insert_replace_roundtrip_witness :
    load 3 fsA linker0 "liba.so" "./liba.so" =
      ({ library_path := "", objects := [("liba.so", [1, 2])] }, none) ∧
    load 3 fsA { library_path := "", objects := [("liba.so", [1, 2])] }
      "liba.so" "./liba.so" =
      ({ library_path := "", objects := [("liba.so", [1, 2])] }, none) :=
  ⟨by decide,
   C5_insert_replace_roundtrip.2 3 fsA linker0 "liba.so" "./liba.so"
     { library_path := "", objects := [("liba.so", [1, 2])] } (by decide)⟩

/-! ### The globals scan resolves collisions last-writer-wins (claim C1) -/

theorem objLastOf_cons_skip {obj : Obj} {nm : String} {sym : Sym}
    (h : symDefines obj nm sym = false) (rest : List Sym) :
    objLastOf obj nm (sym :: rest) = objLastOf obj nm rest := by
  simp [objLastOf, List.filter_cons, h]

theorem objLastOf_cons_def {obj : Obj} {nm : String} {sym : Sym}
    (h : symDefines obj nm sym = true) (rest : List Sym) :
    objLastOf obj nm (sym :: rest) =
      some ((objLastOf obj nm rest).getD sym.st_value) := by
  simp only [objLastOf, List.filter_cons, h, if_true]
  rcases hf : rest.filter (symDefines obj nm) with _ | ⟨b, l⟩
  · simp
  · rw [List.getLast?_cons_cons]
    rcases hlast : (b :: l).getLast? with _ | a
    · have hsome : (b :: l).getLast?.isSome := List.getLast?_isSome.mpr (by simp)
      rw [hlast] at hsome
      cases hsome
    · simp [hlast]

theorem scanSyms_get {obj : Obj} {base : Nat} {nm : String} :
    ∀ {syms : List Sym} {g g' : List (String × Nat)},
    scanSyms obj base g syms = .ok g' →
    mapGet nm g' =
      match objLastOf obj nm syms with
      | some v => some (base + v)
      | none => mapGet nm g := by
  intro syms
  induction syms with
  | nil =>
    intro g g' h
    injection h with h
    subst h
    rfl
  | cons sym rest ih =>
    intro g g' h
    simp only [scanSyms] at h
    by_cases hcond : sym.st_bind = STB_GLOBAL ∧ sym.st_value ≠ 0
    · rw [if_pos hcond] at h
      rcases hst : obj.strtab sym.st_name with _ | res
      · rw [hst] at h
        dsimp only at h
        have hdef : symDefines obj nm sym = false := by
          simp [symDefines, symName, hst]
        rw [ih h, objLastOf_cons_skip hdef]
      · rcases res with e | name
        · rw [hst] at h
          dsimp only at h
          exact Except.noConfusion h
        · rw [hst] at h
          dsimp only at h
          rw [ih h]
          by_cases hnm : name = nm
          · have hdef : symDefines obj nm sym = true := by
              simp [symDefines, symName, hst, hcond.1, hcond.2, hnm]
            rw [objLastOf_cons_def hdef]
            rcases hrest : objLastOf obj nm rest with _ | v
            · simp only [Option.getD]
              subst hnm
              rw [mapGet_mapInsert_self]
            · simp only [Option.getD]
          · have hdef : symDefines obj nm sym = false := by
              simp [symDefines, symName, hst]
              intro _ _
              exact hnm
            rw [objLastOf_cons_skip hdef]
            rcases hrest : objLastOf obj nm rest with _ | v
            · have hne : nm ≠ name := fun hc => hnm hc.symm
              rw [mapGet_mapInsert_ne hne]
            · rfl
    · rw [if_neg hcond] at h
      have hdef : symDefines obj nm sym = false := by
        apply Bool.eq_false_iff.mpr
        intro htrue
        simp only [symDefines, Bool.and_eq_true, decide_eq_true_eq] at htrue
        exact hcond ⟨htrue.1.1, htrue.1.2⟩
      rw [ih h, objLastOf_cons_skip hdef]

theorem scanObject_globals {env : LinkEnv} {primary : String} {st : ScanState}
    {name : String} {obj : Obj} {st' : ScanState}
    (h : scanObject env primary st name obj = .ok st') (nm : String) :
    mapGet nm st'.globals =
      if (boundsOf obj.program_headers).isSome then
        match objLastDef obj nm with
        | some v => some (env.alloc name + v)
        | none => mapGet nm st.globals
      else mapGet nm st.globals := by
  unfold scanObject at h
  rcases hsh : scanHeadersAux none 0 obj.program_headers with ⟨b?, tlsSum⟩
  have hb : boundsOf obj.program_headers = b? := by
    rw [boundsOf, hsh]
  rw [hsh] at h
  dsimp only at h
  rcases b? with _ | lohi
  · dsimp only at h
    injection h with h
    rw [← h, hb]
    rfl
  · obtain ⟨lo, hi⟩ := lohi
    dsimp only at h
    by_cases hmm : env.mmapOk name
    · rw [if_pos hmm] at h
      rcases hsy : scanSyms obj (env.alloc name) st.globals obj.dynsyms with e | g
      · rw [hsy] at h
        exact Except.noConfusion h
      · rw [hsy] at h
        injection h with h
        rw [← h]
        rw [hb]
        simp only [Option.isSome, if_true]
        exact scanSyms_get hsy
    · rw [if_neg hmm] at h
      exact Except.noConfusion h

/-- C1 (amended): the globals scan resolves name collisions by
last-writer-wins in the name-sorted iteration order — the table maps a name
to `base + st_value` of its latest definer (the last defining dynsym entry
of the last mapped object that defines it); the primary's definition
prevails only when the primary is that last definer. -/
theorem C1_last_definer_wins (env : LinkEnv) (primary : String) :
    ∀ (objs : List (String × Obj)) (st0 st : ScanState),
    scanPhase env primary st0 objs = .ok st → ∀ nm,
    mapGet nm st.globals =
      match lastGlobalDef env nm objs with
      | some v => some v
      | none => mapGet nm st0.globals := by
  intro objs
  induction objs with
  | nil =>
    intro st0 st h nm
    injection h with h
    subst h
    rfl
  | cons hd rest ih =>
    intro st0 st h nm
    obtain ⟨name, obj⟩ := hd
    simp only [scanPhase] at h
    rcases hso : scanObject env primary st0 name obj with e | st1
    · rw [hso] at h
      exact Except.noConfusion h
    · rw [hso] at h
      dsimp only at h
      have hrec := ih st1 st h nm
      have hobj := scanObject_globals hso nm
      rw [hrec]
      simp only [lastGlobalDef]
      rcases hrest : lastGlobalDef env nm rest with _ | v
      · rw [hobj]
        by_cases hbs : (boundsOf obj.program_headers).isSome = true
        · rw [if_pos hbs]
          simp only [hbs, if_true]
          rcases hld : objLastDef obj nm with _ | v <;> simp [hld]
        · simp only [hbs, Bool.false_eq_true, if_false]
      · rfl

/-- Witness for C1 (amended) on the concrete collision: the later object `b`
provides the surviving binding of `foo`. -/
theorem C1_last_definer_wins_witness :
    (scanPhase envC1 "a" initScan objsC1 =
       .ok { tls_primary := 0, tls_size := 0,
             mmaps := [("a", (65536, 4096)), ("b", (131072, 4096))],
             globals := [("foo", 131584)] } ∧
     lastGlobalDef envC1 "foo" objsC1 = some 131584) ∧
    mapGet "foo" [("foo", 131584)] = some 131584 := by
  refine ⟨⟨by rfl, by rfl⟩, ?_⟩
  have h := C1_last_definer_wins envC1 "a" objsC1 initScan
    { tls_primary := 0, tls_size := 0,
      mmaps := [("a", (65536, 4096)), ("b", (131072, 4096))],
      globals := [("foo", 131584)] } (by rfl) "foo"
  simpa using h

/-- Counterexample to C1 as stated: both objects define the GLOBAL symbol
`foo` with nonzero `st_value`; after the scan the table maps `foo` to the
non-primary definition `131072 + 512`, not to
`primary_base + st_value = 65536 + 256`. -/
theorem C1_primary_dominates_counterexample :
    (match scanPhase envC1 "a" initScan objsC1 with
     | .ok st => mapGet "foo" st.globals
     | .error _ => none) = some (131072 + 512) ∧
    (131072 + 512 : Nat) ≠ 65536 + 256 :=
  ⟨by rfl, by decide⟩

/-! ### TLS slot assignment of the copy phase (claim C4) -/

theorem memsz_le_valign (ph : ProgramHeader) : ph.p_memsz ≤ valignOf ph := by
  unfold valignOf
  by_cases ha : ph.p_align > 0
  · rw [if_pos ha]
    have h := Nat.div_add_mod (ph.p_memsz + (ph.p_align - 1)) ph.p_align
    have h2 := Nat.mod_lt (ph.p_memsz + (ph.p_align - 1)) ha
    rw [Nat.mul_comm ((ph.p_memsz + (ph.p_align - 1)) / ph.p_align) ph.p_align]
    omega
  · rw [if_neg ha]

theorem copyPhs_state_const {primary name : String} {dataLen msize tlsLen : Nat} :
    ∀ {phs : List ProgramHeader} {st st' : CopyState} {evs : List CopyEv},
    (∀ q ∈ phs, q.p_type ≠ PT_TLS) →
    copyPhs primary name dataLen msize tlsLen st phs = .ok (st', evs) →
    st' = st := by
  intro phs
  induction phs with
  | nil =>
    intro st st' evs _ h
    cases h
    rfl
  | cons ph rest ih =>
    intro st st' evs hno h
    have hty : ph.p_type ≠ PT_TLS := hno ph (List.mem_cons_self ph rest)
    have hrest : ∀ q ∈ rest, q.p_type ≠ PT_TLS :=
      fun q hq => hno q (List.mem_cons_of_mem ph hq)
    by_cases hl : ph.p_type = PT_LOAD
    · simp only [copyPhs, hl, if_true] at h
      by_cases h1 : ph.p_offset + ph.p_filesz ≤ dataLen
      · rw [if_pos h1] at h
        by_cases h2 : ph.p_vaddr + ph.p_filesz ≤ msize
        · rw [if_pos h2] at h
          rcases hrec : copyPhs primary name dataLen msize tlsLen st rest
            with e | ⟨st2, evs2⟩
          · rw [hrec] at h
            exact Except.noConfusion h
          · rw [hrec] at h
            dsimp only at h
            cases h
            exact ih hrest hrec
        · rw [if_neg h2] at h
          exact Except.noConfusion h
      · rw [if_neg h1] at h
        exact Except.noConfusion h
    · simp only [copyPhs, hl, hty, if_false] at h
      rcases hrec : copyPhs primary name dataLen msize tlsLen st rest
        with e | ⟨st2, evs2⟩
      · rw [hrec] at h
        exact Except.noConfusion h
      · rw [hrec] at h
        dsimp only at h
        cases h
        exact ih hrest hrec

theorem copyPhs_tls_formula {primary name : String} {dataLen msize tlsLen : Nat} :
    ∀ {pre : List ProgramHeader} {ph : ProgramHeader} {post : List ProgramHeader}
    {st st' : CopyState} {evs : List CopyEv},
    (∀ q ∈ pre, q.p_type ≠ PT_TLS) → (∀ q ∈ post, q.p_type ≠ PT_TLS) →
    ph.p_type = PT_TLS →
    copyPhs primary name dataLen msize tlsLen st (pre ++ ph :: post) =
      .ok (st', evs) →
    (name = primary →
       mapGet name st'.tls_ranges =
         some (0, tlsLen - valignOf ph, ph.p_filesz) ∧
       st'.tls_offset = st.tls_offset ∧ st'.tls_index = st.tls_index) ∧
    (name ≠ primary →
       mapGet name st'.tls_ranges =
         some (st.tls_index + 1, tlsLen - (st.tls_offset + valignOf ph),
               ph.p_filesz) ∧
       st'.tls_offset = st.tls_offset + vsizeOf ph ∧
       st'.tls_index = st.tls_index + 1) := by
  intro pre
  induction pre with
  | nil =>
    intro ph post st st' evs _ hpost hTLS h
    rw [List.nil_append] at h
    rw [copyPhs.eq_def] at h
    dsimp only at h
    have hnl : ¬ ph.p_type = PT_LOAD := by
      rw [hTLS]
      decide
    rw [if_neg hnl, if_pos hTLS] at h
    by_cases h1 : ph.p_offset + ph.p_filesz ≤ dataLen
    · rw [if_pos h1] at h
      rcases hslot : tlsSlot primary name tlsLen st (valignOf ph) (vsizeOf ph)
        with _ | ⟨idx, start, st1⟩
      · rw [hslot] at h
        dsimp only at h
        exact Except.noConfusion h
      · rw [hslot] at h
        dsimp only at h
        by_cases h2 : start + ph.p_filesz ≤ tlsLen
        · rw [if_pos h2] at h
          rcases hrec : copyPhs primary name dataLen msize tlsLen
              { st1 with tls_ranges :=
                  mapInsert name (idx, start, ph.p_filesz) st1.tls_ranges }
              post with e | ⟨st2, evs2⟩
          · rw [hrec] at h
            exact Except.noConfusion h
          · rw [hrec] at h
            dsimp only at h
            cases h
            have hconst := copyPhs_state_const hpost hrec
            subst hconst
            unfold tlsSlot at hslot
            constructor
            · intro hp
              rw [if_pos hp] at hslot
              by_cases hv : valignOf ph ≤ tlsLen
              · rw [if_pos hv] at hslot
                injection hslot with hslot
                injection hslot with hidx hslot
                injection hslot with hstart hst1
                subst hidx
                subst hstart
                subst hst1
                exact ⟨mapGet_mapInsert_self _ _ _, rfl, rfl⟩
              · rw [if_neg hv] at hslot
                exact Option.noConfusion hslot
            · intro hp
              rw [if_neg hp] at hslot
              by_cases hv : st.tls_offset + valignOf ph ≤ tlsLen
              · rw [if_pos hv] at hslot
                injection hslot with hslot
                injection hslot with hidx hslot
                injection hslot with hstart hst1
                subst hidx
                subst hstart
                subst hst1
                exact ⟨mapGet_mapInsert_self _ _ _, rfl, rfl⟩
              · rw [if_neg hv] at hslot
                exact Option.noConfusion hslot
        · rw [if_neg h2] at h
          exact Except.noConfusion h
    · rw [if_neg h1] at h
      exact Except.noConfusion h
  | cons q pre' ih =>
    intro ph post st st' evs hpre hpost hTLS h
    have hqty : q.p_type ≠ PT_TLS := hpre q (List.mem_cons_self q pre')
    have hpre' : ∀ r ∈ pre', r.p_type ≠ PT_TLS :=
      fun r hr => hpre r (List.mem_cons_of_mem q hr)
    rw [List.cons_append] at h
    by_cases hl : q.p_type = PT_LOAD
    · simp only [copyPhs, hl, if_true] at h
      by_cases h1 : q.p_offset + q.p_filesz ≤ dataLen
      · rw [if_pos h1] at h
        by_cases h2 : q.p_vaddr + q.p_filesz ≤ msize
        · rw [if_pos h2] at h
          rcases hrec : copyPhs primary name dataLen msize tlsLen st
              (pre' ++ ph :: post) with e | ⟨st2, evs2⟩
          · rw [hrec] at h
            exact Except.noConfusion h
          · rw [hrec] at h
            dsimp only at h
            cases h
            exact ih hpre' hpost hTLS hrec
        · rw [if_neg h2] at h
          exact Except.noConfusion h
      · rw [if_neg h1] at h
        exact Except.noConfusion h
    · simp only [copyPhs, hl, hqty, if_false] at h
      rcases hrec : copyPhs primary name dataLen msize tlsLen st
          (pre' ++ ph :: post) with e | ⟨st2, evs2⟩
      · rw [hrec] at h
        exact Except.noConfusion h
      · rw [hrec] at h
        dsimp only at h
        cases h
        exact ih hpre' hpost hTLS hrec

theorem copyPhs_inv {primary name : String} {dataLen msize tlsLen tlsPrimary : Nat} :
    ∀ {phs : List ProgramHeader} {st st' : CopyState} {evs : List CopyEv},
    (∀ ph ∈ phs, ph.p_type = PT_TLS → ph.p_filesz ≤ ph.p_memsz) →
    copyPhs primary name dataLen msize tlsLen st phs = .ok (st', evs) →
    TlsInv primary tlsLen tlsPrimary st → TlsInv primary tlsLen tlsPrimary st' := by
  intro phs
  induction phs with
  | nil =>
    intro st st' evs _ h hinv
    cases h
    exact hinv
  | cons ph rest ih =>
    intro st st' evs hfile h hinv
    have hfrest : ∀ q ∈ rest, q.p_type = PT_TLS → q.p_filesz ≤ q.p_memsz :=
      fun q hq => hfile q (List.mem_cons_of_mem ph hq)
    by_cases hl : ph.p_type = PT_LOAD
    · simp only [copyPhs, hl, if_true] at h
      by_cases h1 : ph.p_offset + ph.p_filesz ≤ dataLen
      · rw [if_pos h1] at h
        by_cases h2 : ph.p_vaddr + ph.p_filesz ≤ msize
        · rw [if_pos h2] at h
          rcases hrec : copyPhs primary name dataLen msize tlsLen st rest
            with e | ⟨st2, evs2⟩
          · rw [hrec] at h
            exact Except.noConfusion h
          · rw [hrec] at h
            dsimp only at h
            cases h
            exact ih hfrest hrec hinv
        · rw [if_neg h2] at h
          exact Except.noConfusion h
      · rw [if_neg h1] at h
        exact Except.noConfusion h
    · by_cases ht : ph.p_type = PT_TLS
      · rw [copyPhs.eq_def] at h
        dsimp only at h
        rw [if_neg hl, if_pos ht] at h
        by_cases h1 : ph.p_offset + ph.p_filesz ≤ dataLen
        · rw [if_pos h1] at h
          rcases hslot : tlsSlot primary name tlsLen st (valignOf ph) (vsizeOf ph)
            with _ | ⟨idx, start, st1⟩
          · rw [hslot] at h
            dsimp only at h
            exact Except.noConfusion h
          · rw [hslot] at h
            dsimp only at h
            by_cases h2 : start + ph.p_filesz ≤ tlsLen
            · rw [if_pos h2] at h
              rcases hrec : copyPhs primary name dataLen msize tlsLen
                  { st1 with tls_ranges :=
                      mapInsert name (idx, start, ph.p_filesz) st1.tls_ranges }
                  rest with e | ⟨st2, evs2⟩
              · rw [hrec] at h
                exact Except.noConfusion h
              · rw [hrec] at h
                dsimp only at h
                cases h
                refine ih hfrest hrec ?_
                have hm : ph.p_filesz ≤ ph.p_memsz :=
                  hfile ph (List.mem_cons_self ph rest) ht
                have hmv : ph.p_memsz ≤ valignOf ph := memsz_le_valign ph
                unfold tlsSlot at hslot
                by_cases hp : name = primary
                · rw [if_pos hp] at hslot
                  by_cases hv : valignOf ph ≤ tlsLen
                  · rw [if_pos hv] at hslot
                    injection hslot with hslot
                    injection hslot with hidx hslot
                    injection hslot with hstart hst1
                    subst hidx
                    subst hstart
                    subst hst1
                    refine ⟨hinv.1, ?_⟩
                    intro nm idx' s l hnm hget
                    have hne : nm ≠ name := by
                      rw [hp]
                      exact hnm
                    rw [mapGet_mapInsert_ne hne] at hget
                    exact hinv.2 nm idx' s l hnm hget
                  · rw [if_neg hv] at hslot
                    exact Option.noConfusion hslot
                · rw [if_neg hp] at hslot
                  by_cases hv : st.tls_offset + valignOf ph ≤ tlsLen
                  · rw [if_pos hv] at hslot
                    injection hslot with hslot
                    injection hslot with hidx hslot
                    injection hslot with hstart hst1
                    subst hidx
                    subst hstart
                    subst hst1
                    constructor
                    · have h0 := hinv.1
                      dsimp only
                      omega
                    · intro nm idx' s l hnm hget
                      by_cases hov : nm = name
                      · subst hov
                        rw [mapGet_mapInsert_self] at hget
                        injection hget with hget
                        injection hget with hidx2 hget
                        injection hget with hs hl2
                        have h0 := hinv.1
                        subst hs
                        subst hl2
                        omega
                      · rw [mapGet_mapInsert_ne hov] at hget
                        exact hinv.2 nm idx' s l hnm hget
                  · rw [if_neg hv] at hslot
                    exact Option.noConfusion hslot
            · rw [if_neg h2] at h
              exact Except.noConfusion h
        · rw [if_neg h1] at h
          exact Except.noConfusion h
      · rw [copyPhs.eq_def] at h
        dsimp only at h
        rw [if_neg hl, if_neg ht] at h
        rcases hrec : copyPhs primary name dataLen msize tlsLen st rest
          with e | ⟨st2, evs2⟩
        · rw [hrec] at h
          exact Except.noConfusion h
        · rw [hrec] at h
          dsimp only at h
          cases h
          exact ih hfrest hrec hinv

theorem copyObject_inv {primary : String} {mmaps : List (String × (Nat × Nat))}
    {tlsLen tlsPrimary : Nat} {st st' : CopyState} {evs : List CopyEv}
    {name : String} {obj : Obj}
    (hfile : ∀ ph ∈ obj.program_headers, ph.p_type = PT_TLS →
      ph.p_filesz ≤ ph.p_memsz)
    (h : copyObject primary mmaps tlsLen st name obj = .ok (st', evs))
    (hinv : TlsInv primary tlsLen tlsPrimary st) :
    TlsInv primary tlsLen tlsPrimary st' := by
  unfold copyObject at h
  rcases hm : mapGet name mmaps with _ | b
  · rw [hm] at h
    dsimp only at h
    cases h
    exact hinv
  · obtain ⟨b0, msize⟩ := b
    rw [hm] at h
    dsimp only at h
    exact copyPhs_inv hfile h hinv

theorem copyPhaseAux_inv {primary : String} {mmaps : List (String × (Nat × Nat))}
    {tlsLen tlsPrimary : Nat} :
    ∀ {objs : List (String × Obj)} {st st' : CopyState} {evs : List CopyEv},
    (∀ p obj, (p, obj) ∈ objs → ∀ ph ∈ obj.program_headers,
      ph.p_type = PT_TLS → ph.p_filesz ≤ ph.p_memsz) →
    copyPhaseAux primary mmaps tlsLen st objs = .ok (st', evs) →
    TlsInv primary tlsLen tlsPrimary st → TlsInv primary tlsLen tlsPrimary st' := by
  intro objs
  induction objs with
  | nil =>
    intro st st' evs _ h hinv
    cases h
    exact hinv
  | cons hd rest ih =>
    intro st st' evs hfile h hinv
    obtain ⟨name, obj⟩ := hd
    simp only [copyPhaseAux] at h
    rcases hco : copyObject primary mmaps tlsLen st name obj with e | ⟨st1, evs1⟩
    · rw [hco] at h
      exact Except.noConfusion h
    · rw [hco] at h
      dsimp only at h
      rcases hrest : copyPhaseAux primary mmaps tlsLen st1 rest with e | ⟨st2, evs2⟩
      · rw [hrest] at h
        exact Except.noConfusion h
      · rw [hrest] at h
        dsimp only at h
        cases h
        have h1 := copyObject_inv
          (hfile name obj (List.mem_cons_self _ _)) hco hinv
        exact ih (fun p o hp => hfile p o (List.mem_cons_of_mem _ hp)) hrest h1

/-- C4 (amended): in the TLS buffer of size `tls_size`, the primary's
`PT_TLS` slot is `(index 0, start T.len - valign)` and a non-primary slot is
`(index tls_counter + 1, start T.len - (tls_offset + valign))`, `tls_offset`
starting at `tls_primary` (the copy phase's initial state) and advancing by
the page-rounded `vsize`; and — provided every `PT_TLS` has
`p_filesz ≤ p_memsz` and the primary slot's start lies at or above
`T.len - tls_primary` (true e.g. when `p_align ≤ PAGE_SIZE`) — every
non-primary slot lies entirely below the primary slot. -/
theorem C4_tls_slot_assignment (primary : String)
    (mmaps : List (String × (Nat × Nat))) (tlsLen tlsPrimary : Nat) :
    (∀ (name : String) (obj : Obj) (b msize : Nat) (st st' : CopyState)
       (evs : List CopyEv) (pre : List ProgramHeader) (ph : ProgramHeader)
       (post : List ProgramHeader),
       mapGet name mmaps = some (b, msize) →
       obj.program_headers = pre ++ ph :: post →
       (∀ q ∈ pre, q.p_type ≠ PT_TLS) → (∀ q ∈ post, q.p_type ≠ PT_TLS) →
       ph.p_type = PT_TLS →
       copyObject primary mmaps tlsLen st name obj = .ok (st', evs) →
       (name = primary →
          mapGet name st'.tls_ranges =
            some (0, tlsLen - valignOf ph, ph.p_filesz) ∧
          st'.tls_offset = st.tls_offset ∧ st'.tls_index = st.tls_index) ∧
       (name ≠ primary →
          mapGet name st'.tls_ranges =
            some (st.tls_index + 1, tlsLen - (st.tls_offset + valignOf ph),
                  ph.p_filesz) ∧
          st'.tls_offset = st.tls_offset + vsizeOf ph ∧
          st'.tls_index = st.tls_index + 1)) ∧
    (∀ (objs : List (String × Obj)) (st : CopyState) (evs : List CopyEv),
       copyPhase primary mmaps tlsLen tlsPrimary objs = .ok (st, evs) →
       (∀ p obj, (p, obj) ∈ objs → ∀ ph ∈ obj.program_headers,
         ph.p_type = PT_TLS → ph.p_filesz ≤ ph.p_memsz) →
       ∀ nm idx s l pidx ps pl, nm ≠ primary →
         mapGet nm st.tls_ranges = some (idx, s, l) →
         mapGet primary st.tls_ranges = some (pidx, ps, pl) →
         tlsLen - tlsPrimary ≤ ps →
         s + l ≤ ps) := by
  constructor
  · intro name obj b msize st st' evs pre ph post hm hphs hpre hpost hTLS h
    unfold copyObject at h
    rw [hm] at h
    dsimp only at h
    rw [hphs] at h
    exact copyPhs_tls_formula hpre hpost hTLS h
  · intro objs st evs h hfile nm idx s l pidx ps pl hnm hget hp hps
    unfold copyPhase at h
    have hinv0 : TlsInv primary tlsLen tlsPrimary ⟨tlsPrimary, 0, []⟩ := by
      refine ⟨le_refl tlsPrimary, ?_⟩
      intro nm' idx' s' l' _ hg
      simp [mapGet] at hg
    have hinv := copyPhaseAux_inv hfile h hinv0
    have hbound := hinv.2 nm idx s l hnm hget
    omega

theorem objTlsB_file_bound : ∀ ph ∈ objTlsB.program_headers,
    ph.p_type = PT_TLS → ph.p_filesz ≤ ph.p_memsz := by
  intro ph hph hty
  have hph' : ph ∈ [phLoadRX, phTlsPage] := hph
  rcases List.mem_cons.mp hph' with rfl | hph2
  · exact absurd hty (by decide)
  · rcases List.mem_cons.mp hph2 with rfl | hph3
    · decide
    · cases hph3

theorem objsT2_file_bound : ∀ (p : String) (o : Obj),
    (p, o) ∈ [("a", objTlsB), ("b", objTlsB)] →
    ∀ ph ∈ o.program_headers, ph.p_type = PT_TLS → ph.p_filesz ≤ ph.p_memsz := by
  intro p o hp
  rcases List.mem_cons.mp hp with heq | hp2
  · injection heq with h1 h2
    subst h2
    exact objTlsB_file_bound
  · rcases List.mem_cons.mp hp2 with heq | hp3
    · injection heq with h1 h2
      subst h2
      exact objTlsB_file_bound
    · cases hp3

/-- Witness for C4 (amended): the non-primary object `b`, entering with
`tls_offset = 4096` and `tls_index = 0`, gets slot
`(1, 8192 - (4096 + 4096)) = (1, 0)`; with page-aligned TLS on both
objects the non-primary slot ends at the primary slot's start. -/
theorem C4_tls_slot_assignment_witness :
    (copyObject "a" mmapsAB 8192 ⟨4096, 0, []⟩ "b" objTlsB =
       .ok (⟨8192, 1, [("b", (1, 0, 4096))]⟩,
            [.load "b" 0 16, .tls "b" 0 4096]) ∧
     mapGet "b" [("b", (1, 0, 4096))] = some (0 + 1, 8192 - (4096 + 4096), 4096)) ∧
    (copyPhase "a" mmapsAB 8192 4096 [("a", objTlsB), ("b", objTlsB)] =
       .ok (⟨8192, 1, [("a", (0, 4096, 4096)), ("b", (1, 0, 4096))]⟩,
            [.load "a" 0 16, .tls "a" 4096 4096, .load "b" 0 16, .tls "b" 0 4096]) ∧
     (0 + 4096 : Nat) ≤ 4096) := by
  constructor
  · constructor
    · rfl
    · exact ((C4_tls_slot_assignment "a" mmapsAB 8192 4096).1 "b" objTlsB
        131072 4096 ⟨4096, 0, []⟩ ⟨8192, 1, [("b", (1, 0, 4096))]⟩
        [.load "b" 0 16, .tls "b" 0 4096] [phLoadRX] phTlsPage []
        (by decide) (by decide) (by decide) (by decide) (by decide)
        (by rfl)).2 (by decide) |>.1
  · constructor
    · rfl
    · exact (C4_tls_slot_assignment "a" mmapsAB 8192 4096).2
        [("a", objTlsB), ("b", objTlsB)]
        ⟨8192, 1, [("a", (0, 4096, 4096)), ("b", (1, 0, 4096))]⟩
        [.load "a" 0 16, .tls "a" 4096 4096, .load "b" 0 16, .tls "b" 0 4096]
        (by rfl) objsT2_file_bound "b" 1 0 4096 0 4096 4096 (by decide)
        (by decide) (by decide) (by decide)

/-- Counterexample to C4 as stated: with a primary whose TLS alignment
(8192) exceeds the page size, the full plan-then-copy pipeline places the
primary slot at start 0 — the bottom of the buffer — and the non-primary
slot at start 0 with length 4096, which is not below the primary: the
consequence "the primary occupies the highest addresses and non-primary
slots lie below it" fails. -/
theorem C4_primary_on_top_counterexample :
    (match scanPhase envC1 "a" initScan objsT with
     | .ok stS =>
       match copyPhase "a" stS.mmaps stS.tls_size stS.tls_primary objsT with
       | .ok (st, _) => some (mapGet "a" st.tls_ranges, mapGet "b" st.tls_ranges)
       | .error _ => none
     | .error _ => none) =
      some (some (0, 0, 1), some (1, 0, 4096)) ∧
    ¬ ((0 : Nat) + 4096 ≤ 0) :=
  ⟨by rfl, by decide⟩

end LdSo
